import Mathlib

set_option maxHeartbeats 1000000

namespace CollectHoistable

/-! Shallow embedding of
`src/compiler/packages/babel-plugin-react-compiler/src/HIR/CollectHoistablePropertyLoads.ts`.

JS `Map`s and `Set`s are modelled as insertion-ordered association lists and
duplicate-free lists; trie nodes are identified by their full dependency
(root identifier id plus path), which is justified by the identity-dedup
invariant of `Tree` proved for the allocation model below. -/

/-- One step of a property access path, `.prop` or `?.prop`
(`DependencyPathEntry` in the source). -/
structure PathEntry where
  property : String
  optional : Bool
deriving DecidableEq, Repr

/-- The data identifying a canonical trie node (`PropertyLoadNode`): the root
identifier id together with the ordered path of entries (the node's cached
`fullPath`). Two nodes with the same `Dep` are the same object in the source
trie. -/
structure Dep where
  root : Nat
  path : List PathEntry
deriving DecidableEq, Repr

/-- Modelled from the spec: JS `Set` values are insertion-ordered and
duplicate-free; `sadd` is `Set.prototype.add`. -/
def sadd (l : List Dep) (x : Dep) : List Dep :=
  if x ∈ l then l else l ++ [x]

/-- Modelled from the spec: `Set.prototype.delete`. -/
def sdel (l : List Dep) (x : Dep) : List Dep :=
  l.filter (fun y => y != x)

/-- Modelled from the spec: `Set_union` from the utility module referenced by
the source (not under src/) — a new set listing the members of `a` then the
members of `b` not already present. -/
def SetUnion (a b : List Dep) : List Dep :=
  a ++ b.filter (fun x => decide (x ∉ a))

/-- Modelled from the spec: `Set_intersect` — the members of the first set
contained in every other set; the intersection of an empty list of sets is
the empty set (an entry block keeps only its own facts). -/
def SetIntersect : List (List Dep) → List Dep
  | [] => []
  | s :: rest => s.filter (fun x => rest.all (fun t => decide (x ∈ t)))

/-- Modelled from the spec: `Set_equal` — equal size and mutual containment
(comparison is by node identity/content, not just size). -/
def SetEqual (a b : List Dep) : Bool :=
  a.length == b.length && a.all (fun x => decide (x ∈ b))

/-- The `hasOptional` flag cached on a trie node: true iff any entry of its
path is optional (the source maintains it as `parent.hasOptional ||
entry.optional`, starting from `false` at roots). -/
def hasOptional (d : Dep) : Bool := d.path.any (·.optional)

/-- Number of optional entries on a node's path; the measure that makes the
optional-chain canonicalization terminate. -/
def optCount (d : Dep) : Nat := d.path.countP (·.optional)

/-- Replace an entry by its unconditional counterpart
(`{property: entry.property, optional: false}` in the source). -/
def unopt (e : PathEntry) : PathEntry := { property := e.property, optional := false }

/-- The re-walk performed by `reduceMaybeOptionalChains` for one member: walk
the original path from the root; an optional entry whose accumulated prefix
node is a member of `knownNonNulls` is replaced by its unconditional
counterpart before resolving the next segment. `acc` is the path of the
accumulated prefix node (`currNode`); the result is the rewritten suffix. -/
def walkPath (known : List Dep) (root : Nat) (acc : List PathEntry) :
    List PathEntry → List PathEntry
  | [] => []
  | e :: rest =>
    let e' := if e.optional ∧ (Dep.mk root acc) ∈ known then unopt e else e
    e' :: walkPath known root (acc ++ [e']) rest

/-- Re-walk a whole dependency: the terminal node (`currNode` at loop exit)
reached for `original.fullPath` given the current `knownNonNulls`. -/
def walkDep (known : List Dep) (d : Dep) : Dep :=
  ⟨d.root, walkPath known d.root [] d.path⟩

/-- Relation between an entry produced by the re-walk and the original entry:
same property, and the result is optional only if the original was. -/
def entryLe (e' e : PathEntry) : Prop :=
  e'.property = e.property ∧ (e'.optional = true → e.optional = true)

theorem walkPath_rel (known : List Dep) (root : Nat) :
    ∀ (l : List PathEntry) (acc : List PathEntry),
      List.Forall₂ entryLe (walkPath known root acc l) l := by
  intro l
  induction l with
  | nil => intro acc; simp [walkPath]
  | cons e rest ih =>
    intro acc
    simp only [walkPath]
    refine List.Forall₂.cons ?_ (ih _)
    by_cases h : (e.optional ∧ (Dep.mk root acc) ∈ known)
    · simp only [if_pos h]
      exact ⟨rfl, fun hf => by simp [unopt] at hf⟩
    · simp only [if_neg h]
      exact ⟨rfl, fun hx => hx⟩

theorem countP_le_of_forall₂ :
    ∀ {l' l : List PathEntry}, List.Forall₂ entryLe l' l →
      l'.countP (·.optional) ≤ l.countP (·.optional) := by
  intro l' l h
  induction h with
  | nil => simp
  | @cons a b l₁ l₂ hab _ ih =>
    simp only [List.countP_cons]
    rcases hab with ⟨_, himp⟩
    by_cases ha : a.optional = true
    · have hb := himp ha
      simp [ha, hb]; omega
    · simp only [Bool.not_eq_true] at ha
      simp [ha]
      by_cases hb : b.optional = true <;> simp [hb] <;> omega

theorem countP_lt_of_forall₂_ne :
    ∀ {l' l : List PathEntry}, List.Forall₂ entryLe l' l → l' ≠ l →
      l'.countP (·.optional) < l.countP (·.optional) := by
  intro l' l h
  induction h with
  | nil => intro hne; exact absurd rfl hne
  | @cons a b l₁ l₂ hab htail ih =>
    intro hne
    rcases hab with ⟨hprop, himp⟩
    by_cases hhead : a = b
    · subst hhead
      have hlt : l₁ ≠ l₂ := by
        intro hEq; exact hne (by rw [hEq])
      have := ih hlt
      simp only [List.countP_cons]
      omega
    · -- heads differ: same property, so they differ in `optional`;
      -- `entryLe` then forces a.optional = false and b.optional = true
      have haopt : a.optional = false ∧ b.optional = true := by
        by_cases ha : a.optional = true
        · exact absurd (by cases a; cases b; simp_all [PathEntry.mk.injEq]) hhead
        · simp only [Bool.not_eq_true] at ha
          refine ⟨ha, ?_⟩
          by_cases hb : b.optional = true
          · exact hb
          · simp only [Bool.not_eq_true] at hb
            exact absurd (by cases a; cases b; simp_all) hhead
      have hle := countP_le_of_forall₂ htail
      simp only [List.countP_cons, haopt.1, haopt.2]
      simp
      omega

theorem optCount_walkDep_le (known : List Dep) (d : Dep) :
    optCount (walkDep known d) ≤ optCount d :=
  countP_le_of_forall₂ (walkPath_rel known d.root d.path [])

theorem optCount_walkDep_lt (known : List Dep) (d : Dep)
    (h : walkDep known d ≠ d) :
    optCount (walkDep known d) < optCount d := by
  have hrel := walkPath_rel known d.root d.path []
  have hne : walkPath known d.root [] d.path ≠ d.path := by
    intro hEq
    apply h
    unfold walkDep
    rw [hEq]
  exact countP_lt_of_forall₂_ne hrel hne

/-- The mutable state of one invocation of `reduceMaybeOptionalChains`:
`ocn` is `optionalChainNodes`, `nodes` the candidate fact set being reduced
in place, `known` the `knownNonNulls` set. -/
structure RedState where
  ocn : List Dep
  nodes : List Dep
  known : List Dep
deriving DecidableEq, Repr

/-- Termination measure for one `for (const original of optionalChainNodes)`
pass: entries still pending, weighted by their optional count. -/
def pmeasure (pending : List Dep) : Nat :=
  (pending.map optCount).sum + pending.length

/-- One `for (const original of optionalChainNodes)` pass of
`reduceMaybeOptionalChains`. `pending` is the remainder of the live Set
iteration: a member replaced by a node not yet in `optionalChainNodes` is
appended and visited later in the same pass, exactly like a JS Set iterator.
For each `original`, if the re-walked `currNode` differs, the original is
deleted from `optionalChainNodes` and from `nodes`, the new node added to
both, and the new node is added (only added) to `knownNonNulls`. The `fuel`
argument makes the recursion structural; every step strictly decreases
`pmeasure pending`, so any fuel above `pmeasure pending` gives the untruncated
pass (`passRun_fuel_irrel`), and `reduceMaybeOptionalChains` below always
supplies such fuel. -/
def passRun : Nat → RedState → List Dep → Bool → RedState × Bool
  | 0, st, _, changed => (st, changed)
  | _ + 1, st, [], changed => (st, changed)
  | fuel + 1, st, orig :: rest, changed =>
    if walkDep st.known orig = orig then
      passRun fuel st rest changed
    else
      passRun fuel
        { ocn := sadd (sdel st.ocn orig) (walkDep st.known orig)
          nodes := sadd (sdel st.nodes orig) (walkDep st.known orig)
          known := sadd st.known (walkDep st.known orig) }
        (rest ++ if walkDep st.known orig ∈ sdel st.ocn orig then []
                 else [walkDep st.known orig])
        true

theorem pmeasure_cons (d : Dep) (rest : List Dep) :
    pmeasure (d :: rest) = optCount d + 1 + pmeasure rest := by
  simp only [pmeasure, List.map_cons, List.sum_cons, List.length_cons]
  omega

theorem pmeasure_step_lt (known : List Dep) (orig : Dep) (rest tail : List Dep)
    (h : walkDep known orig ≠ orig)
    (htail : tail = [] ∨ tail = [walkDep known orig]) :
    pmeasure (rest ++ tail) < pmeasure (orig :: rest) := by
  have hlt := optCount_walkDep_lt known orig h
  rcases htail with h0 | h1
  · subst h0
    simp only [List.append_nil, pmeasure_cons]
    omega
  · subst h1
    simp only [pmeasure, List.map_append, List.sum_append, List.map_cons,
      List.sum_cons, List.map_nil, List.sum_nil, List.length_append,
      List.length_cons, List.length_nil]
    omega

theorem passRun_fuel_irrel :
    ∀ (f₁ f₂ : Nat) (st : RedState) (pending : List Dep) (changed : Bool),
      pmeasure pending < f₁ → pmeasure pending < f₂ →
      passRun f₁ st pending changed = passRun f₂ st pending changed := by
  intro f₁
  induction f₁ with
  | zero => intro f₂ st pending changed h1; omega
  | succ f ih =>
    intro f₂ st pending changed h1 h2
    match f₂, pending with
    | 0, _ => omega
    | g + 1, [] => simp [passRun]
    | g + 1, orig :: rest =>
      simp only [passRun]
      by_cases hw : walkDep st.known orig = orig
      · simp only [if_pos hw]
        have hr : pmeasure rest < pmeasure (orig :: rest) := by
          simp only [pmeasure_cons]; omega
        exact ih g st rest changed (by omega) (by omega)
      · simp only [if_neg hw]
        have hstep := pmeasure_step_lt st.known orig rest
          (if walkDep st.known orig ∈ sdel st.ocn orig then []
           else [walkDep st.known orig]) hw
          (by split <;> simp)
        exact ih g _ _ true (by omega) (by omega)

/-- Sum of optional counts over `optionalChainNodes`; the measure that bounds
the number of do/while passes of `reduceMaybeOptionalChains`. -/
def socn (st : RedState) : Nat := (st.ocn.map optCount).sum

theorem mem_sdel {l : List Dep} {x y : Dep} :
    y ∈ sdel l x ↔ y ∈ l ∧ y ≠ x := by
  simp [sdel, List.mem_filter, bne_iff_ne]

theorem mem_sadd {l : List Dep} {x y : Dep} :
    y ∈ sadd l x ↔ y ∈ l ∨ y = x := by
  unfold sadd
  split
  · constructor
    · exact fun h => Or.inl h
    · rintro (h | h)
      · exact h
      · subst h; assumption
  · simp

theorem sdel_nodup {l : List Dep} (h : l.Nodup) (x : Dep) :
    (sdel l x).Nodup := h.filter _

theorem sadd_nodup {l : List Dep} (h : l.Nodup) (x : Dep) :
    (sadd l x).Nodup := by
  unfold sadd
  split
  · exact h
  · simp only [List.nodup_append, h, List.nodup_cons, List.not_mem_nil,
      not_false_iff, List.nodup_nil, and_true, true_and]
    intro a ha hb
    simp only [List.mem_singleton] at hb
    subst hb
    exact absurd ha (by assumption)

theorem sdel_of_not_mem {l : List Dep} {x : Dep} (h : x ∉ l) :
    sdel l x = l := by
  unfold sdel
  apply List.filter_eq_self.2
  intro y hy
  simp only [bne_iff_ne, ne_eq, decide_eq_true_eq]
  intro hEq
  subst hEq
  exact h hy

theorem sum_sdel {l : List Dep} {x : Dep} (hn : l.Nodup) (hx : x ∈ l) :
    ((sdel l x).map optCount).sum + optCount x = (l.map optCount).sum := by
  induction l with
  | nil => cases hx
  | cons a t ih =>
    rcases List.mem_cons.1 hx with hax | hxt
    · subst hax
      have hnt : x ∉ t := (List.nodup_cons.1 hn).1
      have : sdel (x :: t) x = t := by
        unfold sdel
        simp only [List.filter_cons]
        rw [if_neg (by simp)]
        exact List.filter_eq_self.2 fun y hy => by
          simp only [bne_iff_ne, ne_eq, decide_eq_true_eq]
          intro hEq; subst hEq; exact hnt hy
      rw [this]
      simp only [List.map_cons, List.sum_cons]
      omega
    · have hne : a ≠ x := by
        intro hEq; subst hEq
        exact (List.nodup_cons.1 hn).1 hxt
      have : sdel (a :: t) x = a :: sdel t x := by
        unfold sdel
        simp only [List.filter_cons]
        rw [if_pos (by simp [hne])]
      rw [this]
      simp only [List.map_cons, List.sum_cons]
      have := ih (List.nodup_cons.1 hn).2 hxt
      omega

theorem sum_sadd (l : List Dep) (x : Dep) :
    ((sadd l x).map optCount).sum ≤ (l.map optCount).sum + optCount x := by
  unfold sadd
  split
  · omega
  · simp only [List.map_append, List.sum_append, List.map_cons, List.sum_cons,
      List.map_nil, List.sum_nil]
    omega

/-- Each replacement performed during a pass strictly decreases the total
optional count of `optionalChainNodes`; a pass either changes nothing or
shrinks that measure. -/
theorem passRun_socn :
    ∀ (fuel : Nat) (st : RedState) (pending : List Dep) (changed : Bool),
      pmeasure pending < fuel → pending.Nodup → st.ocn.Nodup →
      pending ⊆ st.ocn →
      (passRun fuel st pending changed).1.ocn.Nodup ∧
        (((passRun fuel st pending changed).1 = st ∧
            (passRun fuel st pending changed).2 = changed) ∨
          socn (passRun fuel st pending changed).1 < socn st) := by
  intro fuel
  induction fuel with
  | zero => intro st pending changed h; omega
  | succ f ih =>
    intro st pending changed hf hnp hno hsub
    match pending with
    | [] => simp [passRun, hno]
    | orig :: rest =>
      have horest : orig ∉ rest := (List.nodup_cons.1 hnp).1
      have hnrest : rest.Nodup := (List.nodup_cons.1 hnp).2
      have horig : orig ∈ st.ocn := hsub (List.mem_cons_self _ _)
      simp only [passRun]
      by_cases hw : walkDep st.known orig = orig
      · simp only [if_pos hw]
        have hmr : pmeasure rest < f := by
          have := pmeasure_cons orig rest
          omega
        exact ih st rest changed hmr hnrest hno
          (fun x hx => hsub (List.mem_cons_of_mem _ hx))
      · simp only [if_neg hw]
        have hlt := optCount_walkDep_lt st.known orig hw
        set w := walkDep st.known orig with hwdef
        set st₂ : RedState :=
          { ocn := sadd (sdel st.ocn orig) w
            nodes := sadd (sdel st.nodes orig) w
            known := sadd st.known w } with hst₂
        set pending₂ : List Dep :=
          rest ++ if w ∈ sdel st.ocn orig then [] else [w] with hp₂
        have hrestsub : rest ⊆ sdel st.ocn orig := by
          intro x hx
          exact mem_sdel.2 ⟨hsub (List.mem_cons_of_mem _ hx),
            fun hEq => horest (hEq ▸ hx)⟩
        have hnp₂ : pending₂.Nodup := by
          rw [hp₂]
          split
          · simpa using hnrest
          · simp only [List.nodup_append, hnrest, List.nodup_cons,
              List.not_mem_nil, not_false_iff, List.nodup_nil, and_true,
              true_and]
            intro a ha hb
            simp only [List.mem_singleton] at hb
            subst hb
            exact absurd (hrestsub ha) (by assumption)
        have hno₂ : st₂.ocn.Nodup := sadd_nodup (sdel_nodup hno orig) w
        have hsub₂ : pending₂ ⊆ st₂.ocn := by
          rw [hp₂]
          intro x hx
          rcases List.mem_append.1 hx with hx | hx
          · exact mem_sadd.2 (Or.inl (hrestsub hx))
          · have : x = w := by
              revert hx
              split
              · intro hx; cases hx
              · intro hx; simpa using hx
            subst this
            exact mem_sadd.2 (Or.inr rfl)
        have hm₂ : pmeasure pending₂ < f := by
          have hstep := pmeasure_step_lt st.known orig rest
            (if w ∈ sdel st.ocn orig then [] else [w]) hw (by split <;> simp)
          have := pmeasure_cons orig rest
          rw [hp₂]
          omega
        have hsocn₂ : socn st₂ < socn st := by
          have hdel := sum_sdel hno horig
          have hadd := sum_sadd (sdel st.ocn orig) w
          simp only [socn, hst₂]
          omega
        obtain ⟨hnod, hrest⟩ := ih st₂ pending₂ true hm₂ hnp₂ hno₂ hsub₂
        refine ⟨hnod, Or.inr ?_⟩
        rcases hrest with ⟨hEq, _⟩ | hlt₂
        · rw [hEq]; exact hsocn₂
        · exact lt_trans hlt₂ hsocn₂

/-- The outer do/while of `reduceMaybeOptionalChains`: run one full pass over
`optionalChainNodes` and repeat while a pass changed something. `fuel`
bounds the number of passes; the second component reports whether a pass
with no change was reached (it always is for the bound used in
`reduceMaybeOptionalChains`, see the termination theorem). -/
def reduceLoop : Nat → RedState → RedState × Bool
  | 0, st => (st, false)
  | fuel + 1, st =>
    let p := passRun (pmeasure st.ocn + 1) st st.ocn false
    if p.2 then reduceLoop fuel p.1 else (p.1, true)

/-- The do/while of `reduceMaybeOptionalChains` always exits by a pass that
changes nothing, within `socn` passes: every changing pass strictly shrinks
the total optional count of `optionalChainNodes`. -/
theorem reduceLoop_completes :
    ∀ (fuel : Nat) (st : RedState), st.ocn.Nodup → socn st < fuel →
      (reduceLoop fuel st).2 = true := by
  intro fuel
  induction fuel with
  | zero => intro st _ h; omega
  | succ f ih =>
    intro st hno hs
    simp only [reduceLoop]
    obtain ⟨hnod, hrest⟩ := passRun_socn (pmeasure st.ocn + 1) st st.ocn false
      (by omega) hno hno (fun x hx => hx)
    rcases hrest with ⟨_, hch⟩ | hlt
    · rw [hch]
      simp
    · split
      · exact ih _ hnod (by omega)
      · rfl

/-- `reduceMaybeOptionalChains`: canonicalize optional-chain nodes of a
candidate fact set. If no member has an optional path the set is returned
unchanged; otherwise `knownNonNulls` starts as a copy of the set and passes
repeat until none changes anything. -/
def reduceMaybeOptionalChains (nodes : List Dep) : List Dep :=
  let optionalChainNodes := nodes.filter hasOptional
  if optionalChainNodes.length = 0 then nodes
  else
    (reduceLoop ((optionalChainNodes.map optCount).sum + 1)
      { ocn := optionalChainNodes, nodes := nodes, known := nodes }).1.nodes

/-- Half-open instruction interval (`MutableRange` in HIR); `stop` is the
source's `end` field, which is a reserved word in Lean. -/
structure MutableRange where
  start : Nat
  stop : Nat
deriving DecidableEq, Repr

/-- The owning reactive scope attached to an identifier (`ReactiveScope`):
its id and instruction range, the only fields this pass reads. -/
structure ScopeRef where
  sid : Nat
  range : MutableRange
deriving DecidableEq, Repr

/-- An IR value identifier (`Identifier` in HIR): stable id, optional
declared name, mutable range, optional owning scope. Supplied by the
external IR; this pass never creates identifiers. -/
structure Identifier where
  id : Nat
  name : Option String
  mutableRange : MutableRange
  scope : Option ScopeRef
deriving DecidableEq, Repr

/-- `ReactiveScopeDependency`: a root identifier plus an ordered path — the
logical key `a.b.c`. -/
structure ReactiveScopeDependency where
  identifier : Identifier
  path : List PathEntry
deriving DecidableEq, Repr

/-- Allocation-level model of the `Tree` class, used to state the
identity-dedup invariant. Nodes are identified by allocation ids (`next` is
the allocator counter) so that "the same node object" is expressible.
`alloc` maps each created node's full dependency to its allocation id: it
flattens the source's nested `roots` / `properties` / `optionalProperties`
maps along paths, since the child-map entry of a node for
`(entry.optional, entry.property)` corresponds exactly to extending the
node's `fullPath` by that entry. -/
structure TreeState where
  alloc : List (Dep × Nat)
  next : Nat
deriving DecidableEq, Repr

/-- Look up the allocation id of an already-created node. -/
def lookupDep (ts : TreeState) (d : Dep) : Option Nat :=
  (ts.alloc.find? (fun p => p.1 == d)).map (·.2)

/-- The shared get-or-create step of `Tree.getOrCreateIdentifier` and
`Tree.getOrCreatePropertyEntry`: return the existing node for the given
dependency, or allocate a fresh one. -/
def getOrCreateNode (ts : TreeState) (d : Dep) : Nat × TreeState :=
  match lookupDep ts d with
  | some n => (n, ts)
  | none => (ts.next, ⟨ts.alloc ++ [(d, ts.next)], ts.next + 1⟩)

/-- `Tree.getOrCreateIdentifier`: roots are keyed by `identifier.id`. -/
def getOrCreateIdentifier (ts : TreeState) (identifier : Identifier) :
    Nat × TreeState :=
  getOrCreateNode ts ⟨identifier.id, []⟩

/-- `Tree.getOrCreatePropertyEntry`: the child of `parent` for `entry`,
created if absent (the source selects `optionalProperties` or `properties`
by `entry.optional` and keys by `entry.property`; both data are part of the
child's dependency). -/
def getOrCreatePropertyEntry (ts : TreeState) (parent : Dep)
    (entry : PathEntry) : Nat × TreeState :=
  getOrCreateNode ts ⟨parent.root, parent.path ++ [entry]⟩

/-- The loop of `Tree.getOrCreateProperty` over the path entries (the source
iterates entries `0 .. length-2` and then the last entry, which is the same
traversal). `cur` is the current node (its dependency and allocation id). -/
def chainFrom : TreeState → (Dep × Nat) → List PathEntry → Nat × TreeState
  | ts, cur, [] => (cur.2, ts)
  | ts, cur, e :: rest =>
    chainFrom (getOrCreatePropertyEntry ts cur.1 e).2
      (⟨cur.1.root, cur.1.path ++ [e]⟩, (getOrCreatePropertyEntry ts cur.1 e).1)
      rest

/-- `Tree.getOrCreateProperty`: resolve a whole `ReactiveScopeDependency`
to its node, creating missing intermediates on demand. -/
def getOrCreateProperty (ts : TreeState) (n : ReactiveScopeDependency) :
    Nat × TreeState :=
  let r := getOrCreateIdentifier ts n.identifier
  chainFrom r.2 (⟨n.identifier.id, []⟩, r.1) n.path

/-- The dependencies of the nodes a `chainFrom` traversal touches below its
starting node: every extension of the parent's path by a prefix of the
remaining entries. -/
def chainDeps (parent : Dep) : List PathEntry → List Dep
  | [] => []
  | e :: rest =>
    (⟨parent.root, parent.path ++ [e]⟩ : Dep) ::
      chainDeps ⟨parent.root, parent.path ++ [e]⟩ rest

/-- All nodes `getOrCreateProperty` touches for a dependency: its root and
every prefix of its path. -/
def resolveDeps (n : ReactiveScopeDependency) : List Dep :=
  (⟨n.identifier.id, []⟩ : Dep) :: chainDeps ⟨n.identifier.id, []⟩ n.path

theorem lookupDep_append_single (al : List (Dep × Nat)) (x : Dep × Nat)
    (nx : Nat) (d : Dep) :
    lookupDep ⟨al ++ [x], nx⟩ d =
      match lookupDep ⟨al, nx⟩ d with
      | some v => some v
      | none => if x.1 = d then some x.2 else none := by
  induction al with
  | nil =>
    simp only [lookupDep, List.nil_append, List.find?]
    by_cases h : x.1 = d
    · simp [h]
    · have hb : (x.1 == d) = false := beq_eq_false_iff_ne.2 h
      simp [hb, h]
  | cons a t ih =>
    simp only [lookupDep, List.cons_append, List.find?] at *
    by_cases h : a.1 = d
    · simp [h]
    · have hb : (a.1 == d) = false := beq_eq_false_iff_ne.2 h
      rw [hb]
      simp only [cond_false]
      exact ih

theorem getOrCreateNode_found (ts : TreeState) (d : Dep) :
    lookupDep (getOrCreateNode ts d).2 d = some (getOrCreateNode ts d).1 := by
  unfold getOrCreateNode
  cases h : lookupDep ts d with
  | some n => simp [h]
  | none =>
    simp only [h]
    rw [lookupDep_append_single]
    have hnone : lookupDep ⟨ts.alloc, ts.next + 1⟩ d = none := h
    simp [hnone]

theorem getOrCreateNode_preserves (ts : TreeState) (d d' : Dep) (i : Nat)
    (h : lookupDep ts d' = some i) :
    lookupDep (getOrCreateNode ts d).2 d' = some i := by
  unfold getOrCreateNode
  cases hd : lookupDep ts d with
  | some n => simpa using h
  | none =>
    simp only
    rw [lookupDep_append_single]
    have hsame : lookupDep ⟨ts.alloc, ts.next + 1⟩ d' = some i := h
    simp [hsame]

theorem getOrCreateNode_domain (ts : TreeState) (d d' : Dep) :
    (lookupDep (getOrCreateNode ts d).2 d').isSome = true ↔
      ((lookupDep ts d').isSome = true ∨ d' = d) := by
  unfold getOrCreateNode
  cases hd : lookupDep ts d with
  | some n =>
    simp only
    constructor
    · exact Or.inl
    · rintro (h | rfl)
      · exact h
      · rw [hd]; rfl
  | none =>
    simp only
    rw [lookupDep_append_single]
    have hsame : lookupDep ⟨ts.alloc, ts.next + 1⟩ d' = lookupDep ts d' := rfl
    rw [hsame]
    cases hd' : lookupDep ts d' with
    | some v => simp
    | none =>
      by_cases h : d = d'
      · subst h; simp
      · rw [if_neg h]
        simp only [Option.isSome_none, Bool.false_eq_true, false_iff]
        rintro (hf | hEq)
        · exact absurd hf (by simp)
        · exact h hEq.symm

theorem getOrCreateNode_of_found {ts : TreeState} {d : Dep} {n : Nat}
    (h : lookupDep ts d = some n) : getOrCreateNode ts d = (n, ts) := by
  unfold getOrCreateNode
  rw [h]

theorem chainFrom_preserves :
    ∀ (l : List PathEntry) (ts : TreeState) (cur : Dep × Nat) (d' : Dep)
      (i : Nat), lookupDep ts d' = some i →
      lookupDep (chainFrom ts cur l).2 d' = some i := by
  intro l
  induction l with
  | nil => intro ts cur d' i h; exact h
  | cons e rest ih =>
    intro ts cur d' i h
    simp only [chainFrom]
    exact ih _ _ _ _ (getOrCreateNode_preserves _ _ _ _ h)

theorem chainFrom_idem :
    ∀ (l : List PathEntry) (ts : TreeState) (cur : Dep × Nat),
      chainFrom (chainFrom ts cur l).2 cur l =
        ((chainFrom ts cur l).1, (chainFrom ts cur l).2) := by
  intro l
  induction l with
  | nil => intro ts cur; rfl
  | cons e rest ih =>
    intro ts cur
    have hfound := getOrCreateNode_found ts ⟨cur.1.root, cur.1.path ++ [e]⟩
    have hstill : lookupDep (chainFrom (getOrCreatePropertyEntry ts cur.1 e).2
        (⟨cur.1.root, cur.1.path ++ [e]⟩, (getOrCreatePropertyEntry ts cur.1 e).1)
        rest).2 ⟨cur.1.root, cur.1.path ++ [e]⟩ =
        some (getOrCreatePropertyEntry ts cur.1 e).1 :=
      chainFrom_preserves rest _ _ _ _ hfound
    have hsecond : getOrCreatePropertyEntry (chainFrom
        (getOrCreatePropertyEntry ts cur.1 e).2
        (⟨cur.1.root, cur.1.path ++ [e]⟩, (getOrCreatePropertyEntry ts cur.1 e).1)
        rest).2 cur.1 e =
        ((getOrCreatePropertyEntry ts cur.1 e).1,
          (chainFrom (getOrCreatePropertyEntry ts cur.1 e).2
            (⟨cur.1.root, cur.1.path ++ [e]⟩,
              (getOrCreatePropertyEntry ts cur.1 e).1) rest).2) :=
      getOrCreateNode_of_found hstill
    calc chainFrom (chainFrom ts cur (e :: rest)).2 cur (e :: rest)
        = chainFrom (getOrCreatePropertyEntry (chainFrom
            (getOrCreatePropertyEntry ts cur.1 e).2
            (⟨cur.1.root, cur.1.path ++ [e]⟩,
              (getOrCreatePropertyEntry ts cur.1 e).1) rest).2 cur.1 e).2
          (⟨cur.1.root, cur.1.path ++ [e]⟩,
            (getOrCreatePropertyEntry (chainFrom
              (getOrCreatePropertyEntry ts cur.1 e).2
              (⟨cur.1.root, cur.1.path ++ [e]⟩,
                (getOrCreatePropertyEntry ts cur.1 e).1) rest).2 cur.1 e).1)
          rest := rfl
      _ = chainFrom (chainFrom (getOrCreatePropertyEntry ts cur.1 e).2
            (⟨cur.1.root, cur.1.path ++ [e]⟩,
              (getOrCreatePropertyEntry ts cur.1 e).1) rest).2
          (⟨cur.1.root, cur.1.path ++ [e]⟩,
            (getOrCreatePropertyEntry ts cur.1 e).1) rest := by rw [hsecond]
      _ = ((chainFrom ts cur (e :: rest)).1, (chainFrom ts cur (e :: rest)).2) :=
          ih _ _

theorem chainFrom_domain :
    ∀ (l : List PathEntry) (ts : TreeState) (cur : Dep × Nat) (d' : Dep),
      (lookupDep (chainFrom ts cur l).2 d').isSome = true ↔
        ((lookupDep ts d').isSome = true ∨ d' ∈ chainDeps cur.1 l) := by
  intro l
  induction l with
  | nil =>
    intro ts cur d'
    simp [chainFrom, chainDeps]
  | cons e rest ih =>
    intro ts cur d'
    simp only [chainFrom, chainDeps, List.mem_cons]
    rw [ih]
    unfold getOrCreatePropertyEntry
    rw [getOrCreateNode_domain]
    tauto

/-- Association-list lookup, modelling `Map.get` for insertion-ordered JS
`Map`s keyed by numeric ids. -/
def lookupA {α : Type} (l : List (Nat × α)) (k : Nat) : Option α :=
  (l.find? (fun p => p.1 == k)).map (·.2)

/-- Modelled from the spec: `Map.set` — update the existing entry in place
(preserving insertion order) or append a new one. -/
def setA {α : Type} (l : List (Nat × α)) (k : Nat) (v : α) : List (Nat × α) :=
  if (lookupA l k).isSome then
    l.map (fun p => if p.1 = k then (k, v) else p)
  else l ++ [(k, v)]

/-- `Set.prototype.add` on lists of numeric ids. -/
def saddN (l : List Nat) (x : Nat) : List Nat :=
  if x ∈ l then l else l ++ [x]

/-- A resolved trie node together with its root identifier metadata: the
source reads `node.fullPath.identifier`, which is the first `Identifier`
object registered for that root id (cached by `Tree.getOrCreateIdentifier`
in the node's `fullPath`). -/
structure NodeE where
  dep : Dep
  rootIdentifier : Identifier
deriving DecidableEq, Repr

/-- `Tree.getOrCreateIdentifier` at the level of dependencies, threading the
table of registered root identifiers (the trie's `roots` map). -/
def getOrCreateIdentifierE (roots : List (Nat × Identifier))
    (identifier : Identifier) : NodeE × List (Nat × Identifier) :=
  match lookupA roots identifier.id with
  | some stored => (⟨⟨identifier.id, []⟩, stored⟩, roots)
  | none =>
    (⟨⟨identifier.id, []⟩, identifier⟩, roots ++ [(identifier.id, identifier)])

/-- `Tree.getOrCreateProperty` at the level of dependencies: the resulting
node's dependency is the root id plus the full path, and its cached root
identifier is the one stored by `getOrCreateIdentifier`. -/
def getOrCreatePropertyE (roots : List (Nat × Identifier))
    (n : ReactiveScopeDependency) : NodeE × List (Nat × Identifier) :=
  match getOrCreateIdentifierE roots n.identifier with
  | (rootNode, roots₂) =>
    (⟨⟨n.identifier.id, n.path⟩, rootNode.rootIdentifier⟩, roots₂)

/-- Modelled from the spec: `inRange` from the scope-inference module (not
under src/) — membership of an instruction id in a half-open instruction
interval. -/
def inRange (id : Nat) (range : MutableRange) : Bool :=
  range.start ≤ id && id < range.stop

/-- `pushPropertyLoadNode`: admit a resolved node into the block's fact set
unless its root identifier is *mutable at the instruction* — mutable range
spanning more than one instruction and the owning scope's range containing
the current instruction; known-immutable identifiers are always admitted. -/
def pushPropertyLoadNode (node : NodeE) (instrId : Nat)
    (knownImmutableIdentifiers : List Nat) (result : List Dep) : List Dep :=
  let object := node.rootIdentifier
  let isMutableAtInstr :=
    decide (object.mutableRange.stop > object.mutableRange.start + 1) &&
      (match object.scope with
       | some s => inRange instrId s.range
       | none => false)
  if !isMutableAtInstr ||
      decide (node.rootIdentifier.id ∈ knownImmutableIdentifiers) then
    sadd result node.dep
  else result

/-- A use of a value in an instruction (`Place`): only its identifier is
read by this pass. -/
structure Place where
  identifier : Identifier
deriving DecidableEq, Repr

/-- The instruction values this pass distinguishes. `other` stands for every
remaining instruction kind, carrying its operands and its value-level
lvalues for the closure-reference filter. -/
inductive InstrValue where
  | propertyLoad (object : Place) (property : String)
  | destructure (value : Place) (patterns : List Place)
  | computedLoad (object : Place) (property : Place)
  | functionExpression (dependencies : List Place)
  | other (operands : List Place) (lvalues : List Place)
deriving DecidableEq, Repr

/-- Modelled from the spec: `eachInstructionValueOperand` from the visitors
module (not under src/) — the operand places of an instruction value. -/
def operandsOf : InstrValue → List Place
  | .propertyLoad object _ => [object]
  | .destructure value _ => [value]
  | .computedLoad object property => [object, property]
  | .functionExpression dependencies => dependencies
  | .other operands _ => operands

/-- Modelled from the spec: `eachInstructionValueLValue` — the lvalue places
inside an instruction value (e.g. destructuring patterns). -/
def valueLValuesOf : InstrValue → List Place
  | .destructure _ patterns => patterns
  | .other _ lvalues => lvalues
  | _ => []

/-- An IR instruction: numbered id, result lvalue, and value. -/
structure Instruction where
  id : Nat
  lvalue : Place
  value : InstrValue
deriving DecidableEq, Repr

/-- Block terminals, as far as this pass distinguishes them: a scope-start
terminal (with its scope id and target block), `return`, `throw`, and
everything else. -/
inductive Terminal where
  | scope (sid : Nat) (block : Nat)
  | ret
  | thr
  | other
deriving DecidableEq, Repr

/-- A basic block: id, instructions, predecessor block ids, terminal. -/
structure BasicBlock where
  id : Nat
  instructions : List Instruction
  preds : List Nat
  terminal : Terminal
deriving DecidableEq, Repr

/-- A function parameter: either a plain identifier or some other pattern
(the source checks `p.kind === 'Identifier'`). -/
inductive Param where
  | identifier (i : Identifier)
  | other
deriving DecidableEq, Repr

/-- `fn.fnType`, as far as this pass reads it. -/
inductive FnType where
  | component
  | hook
  | other
deriving DecidableEq, Repr

/-- The `enablePropagateDepsInHIR` configuration flag: the source only
compares it against `'enabled_with_optimizations'`. -/
inductive DepsConfig where
  | enabledWithOptimizations
  | otherSetting
deriving DecidableEq, Repr

/-- The slice of `HIRFunction` this pass consumes. -/
structure HIRFunction where
  params : List Param
  fnType : FnType
  config : DepsConfig
  blocks : List BasicBlock
deriving DecidableEq, Repr

/-- Per-block record (`BlockInfo`): the predecessor list of the block (the
only field of `block` the propagation reads) and `assumedNonNullObjects`. -/
structure BInfo where
  preds : List Nat
  objs : List Dep
deriving DecidableEq, Repr

/-- The per-instruction step of `collectNonNullsInBlocks`: property loads
always resolve their source dependency (the alias-map entry, or the bare
identifier); destructure and computed loads only under the
`enabled_with_optimizations` configuration and only for aliased sources.
`acc` is the pair (trie root table, block fact set). -/
def collectInstr (temporaries : List (Nat × ReactiveScopeDependency))
    (config : DepsConfig) (knownImmutableIdentifiers : List Nat)
    (acc : List (Nat × Identifier) × List Dep) (instr : Instruction) :
    List (Nat × Identifier) × List Dep :=
  match instr.value with
  | .propertyLoad object _ =>
    let source := (lookupA temporaries object.identifier.id).getD
      ⟨object.identifier, []⟩
    let r := getOrCreatePropertyE acc.1 source
    (r.2, pushPropertyLoadNode r.1 instr.id knownImmutableIdentifiers acc.2)
  | .destructure value _ =>
    if config = .enabledWithOptimizations then
      match lookupA temporaries value.identifier.id with
      | some sourceNode =>
        let r := getOrCreatePropertyE acc.1 sourceNode
        (r.2, pushPropertyLoadNode r.1 instr.id knownImmutableIdentifiers acc.2)
      | none => acc
    else acc
  | .computedLoad object _ =>
    if config = .enabledWithOptimizations then
      match lookupA temporaries object.identifier.id with
      | some sourceNode =>
        let r := getOrCreatePropertyE acc.1 sourceNode
        (r.2, pushPropertyLoadNode r.1 instr.id knownImmutableIdentifiers acc.2)
      | none => acc
    else acc
  | _ => acc

/-- `collectNonNullsInBlocks`: seed per-block fact sets. Component/Hook
identifier params are known-immutable; under `enabled_with_optimizations` a
component's first identifier param is seeded as known-non-null in every
block; a block registered in the optional-chain continuation map receives
that single dependency's node and its instructions are skipped. -/
def collectNonNullsInBlocks (fn : HIRFunction)
    (temporaries : List (Nat × ReactiveScopeDependency))
    (optionals : List (Nat × ReactiveScopeDependency)) :
    List (Nat × BInfo) :=
  let knownImmutableIdentifiers : List Nat :=
    if fn.fnType = .component ∨ fn.fnType = .hook then
      fn.params.foldl (fun acc p =>
        match p with
        | .identifier i => acc ++ [i.id]
        | .other => acc) []
    else []
  let seed : List Dep × List (Nat × Identifier) :=
    match fn.config, fn.fnType, fn.params with
    | .enabledWithOptimizations, .component, .identifier i :: _ =>
      let r := getOrCreateIdentifierE [] i
      ([r.1.dep], r.2)
    | _, _, _ => ([], [])
  (fn.blocks.foldl
    (fun (acc : List (Nat × BInfo) × List (Nat × Identifier)) block =>
      match lookupA optionals block.id with
      | some maybeOptionalChain =>
        let r := getOrCreatePropertyE acc.2 maybeOptionalChain
        (acc.1 ++ [(block.id, ⟨block.preds, sadd seed.1 r.1.dep⟩)], r.2)
      | none =>
        let r := block.instructions.foldl
          (collectInstr temporaries fn.config knownImmutableIdentifiers)
          (acc.2, seed.1)
        (acc.1 ++ [(block.id, ⟨block.preds, r.2⟩)], r.1))
    ([], seed.2)).1

/-- One monotone expansion step of the def-use reachability used by the
closure-reference filter. -/
def reachStep (uses : List (Nat × List Nat)) (acc : List Nat) : List Nat :=
  acc.foldl (fun a top => ((lookupA uses top).getD []).foldl saddN a) acc

/-- Modelled from the spec: the `while (queued.length > 0)` worklist of
`collectFunctionExpressionRValues` marks everything transitively reachable
through the recorded def-use edges. The source's worklist assumes the
acyclic SSA def-use graph; the embedding iterates the monotone expansion
enough times to cover any such graph, yielding the same marked set. -/
def reachClosure (uses : List (Nat × List Nat)) :
    Nat → List Nat → List Nat
  | 0, acc => acc
  | n + 1, acc => reachClosure uses n (reachStep uses acc)

/-- The per-instruction step of `collectFunctionExpressionRValues`: function
expressions mark the transitive closure of each captured reference; any
other instruction whose operands (and value-level lvalues) are all unnamed
records its result's dependence on those operands. `acc` is the pair
(def-use map `uses`, marked reference set). -/
def collectFEInstr (acc : List (Nat × List Nat) × List Nat)
    (instr : Instruction) : List (Nat × List Nat) × List Nat :=
  match instr.value with
  | .functionExpression dependencies =>
    (acc.1, dependencies.foldl
      (fun refs reference =>
        (reachClosure acc.1 (acc.1.length + 1) [reference.identifier.id]).foldl
          saddN refs)
      acc.2)
  | v =>
    let operands := operandsOf v ++ valueLValuesOf v
    if operands.all (fun operand => operand.identifier.name == none) then
      (setA acc.1 instr.lvalue.identifier.id
        ((operands.map (·.identifier.id)).dedup), acc.2)
    else acc

/-- `collectFunctionExpressionRValues`: identifiers unsafe to treat as path
aliases because a nested function literal captures them (directly or through
chains of unnamed temporaries). -/
def collectFunctionExpressionRValues (fn : HIRFunction) : List Nat :=
  (fn.blocks.foldl
    (fun acc block => block.instructions.foldl collectFEInstr acc)
    ([], [])).2

/-- Source locations, as far as this file uses them: every error in the
source carries `GeneratedSource` (`generated`). The `artificial` location is
no location of the source: it marks the fuel-exhaustion artifact of the
embedding, which is proved unreachable for the fuel `propagateNonNull`
supplies. -/
inductive SourceLoc where
  | generated
  | artificial
deriving DecidableEq, Repr

/-- A `CompilerError.invariant` payload: reason and source location (the
optional description is always null at the call sites in this file). -/
structure Err where
  reason : String
  loc : SourceLoc
deriving DecidableEq, Repr

/-- Sweep direction of the fixed-point propagator. -/
inductive Direction where
  | forward
  | backward
deriving DecidableEq, Repr

/-- The string the source interpolates into the `Bad node` reason. -/
def dirStr : Direction → String
  | .forward => "forward"
  | .backward => "backward"

/-- The missing-fact-table-entry invariant error of
`recursivelyPropagateNonNull`. -/
def badNodeErr (b : Nat) (dir : Direction) : Err :=
  ⟨"Bad node " ++ toString b ++ ", kind: " ++ dirStr dir, .generated⟩

/-- The `assertNonNull` invariant error. -/
def unexpectedNullErr : Err := ⟨"Unexpected null", .generated⟩

/-- The iteration-cap invariant error of `propagateNonNull`. -/
def capErr : Err :=
  ⟨"[CollectHoistablePropertyLoads] fixed point iteration did not terminate after 100 loops",
    .generated⟩

/-- Artifact of the fueled embedding of the recursive traversal; not an
error of the source. The fuel chosen by `propagateNonNull` is proved never
to produce it. -/
def fuelErr : Err := ⟨"traversal fuel exhausted", .artificial⟩

/-- `assertNonNull`: return the value or fail with the `Unexpected null`
invariant. -/
def assertNonNullE {α : Type} : Option α → Except Err α
  | some v => .ok v
  | none => .error unexpectedNullErr

/-- Traversal states of a block during one sweep (absence from the map is
the third, *unvisited*, state). -/
inductive TState where
  | active
  | done
deriving DecidableEq, Repr

/-- The mutable state of `propagateNonNull`: the per-sweep traversal map and
the per-block fact table. -/
structure PSt where
  tstate : List (Nat × TState)
  tab : List (Nat × BInfo)
deriving DecidableEq, Repr

/-- Update only the fact set of an existing fact-table entry (the source
assigns `assumedNonNullObjects` on the asserted-existing `BlockInfo`). -/
def updObjs (tab : List (Nat × BInfo)) (k : Nat) (objs : List Dep) :
    List (Nat × BInfo) :=
  tab.map (fun p => if p.1 = k then (p.1, ⟨p.2.preds, objs⟩) else p)

/-- The fact sets of the given (done) neighbors, each asserted present
(`assertNonNull(nodes.get(n)).assumedNonNullObjects`). -/
def collectObjs (tab : List (Nat × BInfo)) : List Nat → Except Err (List (List Dep))
  | [] => .ok []
  | n :: rest => do
    let bi ← assertNonNullE (lookupA tab n)
    let tail ← collectObjs tab rest
    .ok (bi.objs :: tail)

/-- The tail of `recursivelyPropagateNonNull` after the recursive neighbor
visits: intersect the fact sets of the neighbors that are `done` for this
sweep, union with the block's own facts, canonicalize optional chains,
store, mark the block `done`, and extend the changed flag by a
content-sensitive set comparison. -/
def updateNode (nodeId : Nat) (neighbors : List Nat)
    (st : PSt) (changed : Bool) : Except Err (PSt × Bool) := do
  let doneNbrs := neighbors.filter
    (fun n => lookupA st.tstate n == some TState.done)
  let factsList ← collectObjs st.tab doneNbrs
  let neighborAccesses := SetIntersect factsList
  let prevInfo ← assertNonNullE (lookupA st.tab nodeId)
  let mergedObjects :=
    reduceMaybeOptionalChains (SetUnion prevInfo.objs neighborAccesses)
  let _ ← assertNonNullE (lookupA st.tab nodeId)
  let st₂ : PSt :=
    { tstate := setA st.tstate nodeId .done
      tab := updObjs st.tab nodeId mergedObjects }
  .ok (st₂, changed || !SetEqual prevInfo.objs mergedObjects)

/-- `recursivelyPropagateNonNull`: depth-first visit with three-state
marking. An already active-or-done block reports no change; otherwise mark
the block active, fail on a missing fact-table entry, recursively visit the
not-yet-visited neighbors (predecessors forward, successors backward)
accumulating their changed flags, and finish via `updateNode`. `fuel`
bounds the recursion depth and makes the definition structural; the fuel
supplied by `propagateNonNull` is proved sufficient. -/
def visit (succMap : List (Nat × List Nat)) :
    Nat → Direction → Nat → PSt → Except Err (PSt × Bool)
  | 0, _, _, _ => .error fuelErr
  | fuel + 1, dir, nodeId, st =>
    if (lookupA st.tstate nodeId).isSome then .ok (st, false)
    else
      let st₁ : PSt := { st with tstate := setA st.tstate nodeId .active }
      match lookupA st₁.tab nodeId with
      | none => .error (badNodeErr nodeId dir)
      | some node =>
        let neighbors := match dir with
          | .backward => (lookupA succMap nodeId).getD []
          | .forward => node.preds
        do
          let r ← neighbors.foldlM
            (fun (acc : PSt × Bool) pred =>
              if (lookupA acc.1.tstate pred).isSome then .ok acc
              else do
                let r' ← visit succMap fuel dir pred acc.1
                .ok (r'.1, acc.2 || r'.2))
            (st₁, false)
          updateNode nodeId neighbors r.1 r.2

/-- One sweep of the outer loop: visit every block of `order`, accumulating
the changed flag, sharing one traversal map. -/
def runSweep (succMap : List (Nat × List Nat)) (fuel : Nat) (dir : Direction)
    (order : List Nat) (st : PSt) : Except Err (PSt × Bool) :=
  order.foldlM
    (fun (acc : PSt × Bool) blockId => do
      let r ← visit succMap fuel dir blockId acc.1
      .ok (r.1, acc.2 || r.2))
    (st, false)

/-- The do/while of `propagateNonNull`, counting iterations down from the
cap of 100: when the counter hits zero the invariant
`fixed point iteration did not terminate after 100 loops` fires (before any
further sweep, exactly like the `i++ < 100` check at the top of the loop
body); otherwise one forward sweep over the blocks in order and one
backward sweep in reverse order, each with a fresh traversal map, repeating
while either sweep reported a change. -/
def loopIter (succMap : List (Nat × List Nat)) (fuel : Nat)
    (order revOrder : List Nat) :
    Nat → List (Nat × BInfo) → Except Err (List (Nat × BInfo))
  | 0, _ => .error capErr
  | rem + 1, tab => do
    let rF ← runSweep succMap fuel .forward order ⟨[], tab⟩
    let rB ← runSweep succMap fuel .backward revOrder ⟨[], rF.1.tab⟩
    if rF.2 || rB.2 then
      loopIter succMap fuel order revOrder rem rB.1.tab
    else .ok rB.1.tab

/-- The successor map built from the predecessor links (the source's
`blockSuccessors`, a Map of Sets keyed in first-insertion order). The source
also gathers `terminalPreds` here, which no later code of the file reads. -/
def buildSuccMap (blocks : List BasicBlock) : List (Nat × List Nat) :=
  blocks.foldl
    (fun m block =>
      block.preds.foldl
        (fun m' pred =>
          match lookupA m' pred with
          | some s => setA m' pred (saddN s block.id)
          | none => m' ++ [(pred, [block.id])])
        m)
    []

/-- Every block id the traversal can reach: the sweep orders (block ids in
program order) plus every predecessor referenced by a fact-table entry
(successor-map values are block ids and need not be added). Its size bounds
the depth of `recursivelyPropagateNonNull`'s recursion. -/
def propagateUniverse (blocks : List BasicBlock) (tab : List (Nat × BInfo)) :
    List Nat :=
  ((blocks.map (·.id)) ++ (tab.map (fun p => p.2.preds)).flatten).dedup

/-- `propagateNonNull`: fixed-point propagation of the per-block fact table
over the control-flow graph, with the 100-iteration cap. -/
def propagateNonNull (blocks : List BasicBlock) (tab : List (Nat × BInfo)) :
    Except Err (List (Nat × BInfo)) :=
  loopIter (buildSuccMap blocks)
    ((propagateUniverse blocks tab).length + 1)
    (blocks.map (·.id)) (blocks.map (·.id)).reverse 100 tab

/-- The entry point `collectHoistablePropertyLoads`: remove
closure-referenced identifiers from the alias map, seed per-block facts,
propagate to fixpoint, and re-key the result by the scope ids of
scope-start terminals (`nodes.get(block.terminal.block)!` is modelled by an
`Option` value, `none` standing for the source's unchecked `undefined`). -/
def collectHoistablePropertyLoads (fn : HIRFunction)
    (temporaries : List (Nat × ReactiveScopeDependency))
    (optionals : List (Nat × ReactiveScopeDependency)) :
    Except Err (List (Nat × Option BInfo)) :=
  let functionExpressionReferences := collectFunctionExpressionRValues fn
  let realTemporaries := temporaries.filter
    (fun p => decide (p.1 ∉ functionExpressionReferences))
  let tab := collectNonNullsInBlocks fn realTemporaries optionals
  (propagateNonNull fn.blocks tab).map (fun tab' =>
    fn.blocks.foldl
      (fun m block =>
        match block.terminal with
        | .scope sid blk => setA m sid (lookupA tab' blk)
        | _ => m)
      [])

theorem foldlM_except_ok_or {α β ε : Type} (f : β → α → Except ε β)
    (P : β → Prop) (Q : ε → Prop)
    (l : List α)
    (hf : ∀ b a, a ∈ l → P b → (∀ r, f b a = .ok r → P r) ∧
      (∀ e, f b a = .error e → Q e)) :
    ∀ (init : β), P init →
      (∀ r, l.foldlM f init = .ok r → P r) ∧
      (∀ e, l.foldlM f init = .error e → Q e) := by
  induction l with
  | nil =>
    intro init hP
    constructor
    · intro r hr
      simp only [List.foldlM_nil] at hr
      cases hr
      exact hP
    · intro e he
      simp only [List.foldlM_nil] at he
      cases he
  | cons a as ih =>
    intro init hP
    cases hstep : f init a with
    | error e0 =>
      have hrw : (a :: as).foldlM f init = .error e0 := by
        simp only [List.foldlM_cons, hstep]
        rfl
      constructor
      · intro r hr
        rw [hrw] at hr
        cases hr
      · intro e he
        rw [hrw] at he
        cases he
        exact (hf init a (List.mem_cons_self _ _) hP).2 e0 hstep
    | ok b =>
      have hPb : P b := (hf init a (List.mem_cons_self _ _) hP).1 b hstep
      have hrw : (a :: as).foldlM f init = as.foldlM f b := by
        simp only [List.foldlM_cons, hstep]
        rfl
      obtain ⟨h1, h2⟩ :=
        ih (fun b' a' ha' => hf b' a' (List.mem_cons_of_mem _ ha')) b hPb
      exact ⟨fun r hr => h1 r (by rwa [hrw] at hr),
        fun e he => h2 e (by rwa [hrw] at he)⟩

theorem foldl_invariant {α β : Type} (f : β → α → β) (P : β → Prop) :
    ∀ (l : List α) (init : β), P init →
      (∀ b a, a ∈ l → P b → P (f b a)) → P (l.foldl f init) := by
  intro l
  induction l with
  | nil => intro init hP _; exact hP
  | cons a as ih =>
    intro init hP hf
    exact ih (f init a) (hf init a (List.mem_cons_self _ _) hP)
      (fun b x hx hb => hf b x (List.mem_cons_of_mem _ hx) hb)

theorem lookupA_append_single {α : Type} (l : List (Nat × α)) (x : Nat × α)
    (k : Nat) :
    lookupA (l ++ [x]) k =
      match lookupA l k with
      | some v => some v
      | none => if x.1 = k then some x.2 else none := by
  induction l with
  | nil =>
    simp only [lookupA, List.nil_append, List.find?]
    by_cases h : x.1 = k
    · simp [h]
    · have hb : (x.1 == k) = false := by simpa using h
      simp [hb, h]
  | cons a t ih =>
    simp only [lookupA, List.cons_append, List.find?] at *
    by_cases h : a.1 = k
    · simp [h]
    · have hb : (a.1 == k) = false := by simpa using h
      rw [hb]
      simp only [cond_false]
      exact ih

theorem lookupA_map_update_self {α : Type} (l : List (Nat × α)) (k : Nat)
    (v : α) :
    lookupA (l.map (fun p => if p.1 = k then (k, v) else p)) k =
      if (lookupA l k).isSome then some v else none := by
  induction l with
  | nil => simp [lookupA]
  | cons a t ih =>
    by_cases h : a.1 = k
    · have ha : (a.1 == k) = true := by simpa using h
      simp [lookupA, List.find?, h, ha]
    · have ha : (a.1 == k) = false := by simpa using h
      simp only [lookupA, List.map_cons, if_neg h, List.find?, ha, cond_false]
      exact ih

theorem lookupA_map_update_other {α : Type} (l : List (Nat × α)) (k k' : Nat)
    (v : α) (h : k' ≠ k) :
    lookupA (l.map (fun p => if p.1 = k then (k, v) else p)) k' =
      lookupA l k' := by
  induction l with
  | nil => simp [lookupA]
  | cons a t ih =>
    by_cases ha : a.1 = k
    · have hk : (k == k') = false := by
        simp only [beq_eq_false_iff_ne, ne_eq]
        exact fun hEq => h hEq.symm
      have ha' : (a.1 == k') = false := by
        simp only [beq_eq_false_iff_ne, ne_eq, ha]
        exact fun hEq => h hEq.symm
      simp only [lookupA, List.map_cons, if_pos ha, List.find?, hk, ha',
        cond_false]
      exact ih
    · simp only [lookupA, List.map_cons, if_neg ha, List.find?]
      cases hb : (a.1 == k') with
      | true => simp
      | false =>
        simp only [cond_false]
        exact ih

theorem lookupA_setA_self {α : Type} (l : List (Nat × α)) (k : Nat) (v : α) :
    lookupA (setA l k v) k = some v := by
  unfold setA
  split
  · rw [lookupA_map_update_self]
    simp [*]
  · rw [lookupA_append_single]
    have hnone : lookupA l k = none := by
      cases h : lookupA l k with
      | none => rfl
      | some w => simp [h] at *
    simp [hnone]

theorem lookupA_setA_other {α : Type} (l : List (Nat × α)) (k k' : Nat)
    (v : α) (h : k' ≠ k) :
    lookupA (setA l k v) k' = lookupA l k' := by
  unfold setA
  split
  · exact lookupA_map_update_other l k k' v h
  · rw [lookupA_append_single]
    cases hl : lookupA l k' with
    | some w => simp
    | none =>
      have hk : ¬(k = k') := fun hEq => h hEq.symm
      simp [hk]

theorem lookupA_setA_isSome_mono {α : Type} (l : List (Nat × α)) (k k' : Nat)
    (v : α) (h : (lookupA l k').isSome = true) :
    (lookupA (setA l k v) k').isSome = true := by
  by_cases hk : k' = k
  · subst hk
    rw [lookupA_setA_self]
    rfl
  · rw [lookupA_setA_other l k k' v hk]
    exact h

theorem length_filter_mono {l : List Nat} {p q : Nat → Bool}
    (h : ∀ x ∈ l, p x = true → q x = true) :
    (l.filter p).length ≤ (l.filter q).length := by
  induction l with
  | nil => simp
  | cons a t ih =>
    have ht : ∀ x ∈ t, p x = true → q x = true :=
      fun x hx => h x (List.mem_cons_of_mem _ hx)
    simp only [List.filter_cons]
    cases hp : p a with
    | true =>
      have hq := h a (List.mem_cons_self _ _) hp
      simp only [hq, List.length_cons]
      exact Nat.succ_le_succ (ih ht)
    | false =>
      cases hq : q a with
      | true =>
        simp only [List.length_cons]
        exact Nat.le_succ_of_le (ih ht)
      | false => exact ih ht

theorem length_filter_lt {l : List Nat} {p q : Nat → Bool} {b : Nat}
    (h : ∀ x ∈ l, p x = true → q x = true) (hb : b ∈ l)
    (hqb : q b = true) (hpb : p b = false) :
    (l.filter p).length < (l.filter q).length := by
  induction l with
  | nil => cases hb
  | cons a t ih =>
    have ht : ∀ x ∈ t, p x = true → q x = true :=
      fun x hx => h x (List.mem_cons_of_mem _ hx)
    rcases List.mem_cons.1 hb with rfl | hbt
    · simp only [List.filter_cons, hpb, hqb, List.length_cons]
      exact Nat.lt_succ_of_le (length_filter_mono ht)
    · simp only [List.filter_cons]
      cases hp : p a with
      | true =>
        have hq := h a (List.mem_cons_self _ _) hp
        simp only [hq, List.length_cons]
        exact Nat.succ_lt_succ (ih ht hbt)
      | false =>
        cases hq : q a with
        | true =>
          simp only [List.length_cons]
          exact Nat.lt_succ_of_lt (ih ht hbt)
        | false => exact ih ht hbt

/-- Number of ids of `U` not yet entered in the traversal map: the measure
bounding the recursion depth of `recursivelyPropagateNonNull`. -/
def countUnvisited (U : List Nat) (ts : List (Nat × TState)) : Nat :=
  (U.filter (fun u => (lookupA ts u).isNone)).length

theorem countUnvisited_le (U : List Nat) (ts : List (Nat × TState)) :
    countUnvisited U ts ≤ U.length :=
  List.length_filter_le _ _

theorem countUnvisited_mono {U : List Nat} {ts ts' : List (Nat × TState)}
    (h : ∀ k, (lookupA ts k).isSome = true → (lookupA ts' k).isSome = true) :
    countUnvisited U ts' ≤ countUnvisited U ts := by
  apply length_filter_mono
  intro x _ hx
  rw [Option.isNone_iff_eq_none] at hx ⊢
  cases hs : lookupA ts x with
  | none => rfl
  | some v =>
    have h1 : (lookupA ts x).isSome = true := by simp [hs]
    have h2 := h x h1
    rw [hx] at h2
    simp at h2

/-- The key/predecessor structure of a fact table; propagation rewrites only
the fact sets, never this projection. -/
def predsProj (tab : List (Nat × BInfo)) : List (Nat × List Nat) :=
  tab.map (fun p => (p.1, p.2.preds))

theorem predsProj_updObjs (tab : List (Nat × BInfo)) (k : Nat)
    (objs : List Dep) : predsProj (updObjs tab k objs) = predsProj tab := by
  induction tab with
  | nil => rfl
  | cons p t ih =>
    simp only [predsProj, updObjs, List.map_cons] at *
    by_cases h : p.1 = k
    · simp only [if_pos h]
      rw [ih]
    · simp only [if_neg h]
      rw [ih]

theorem collectObjs_error (tab : List (Nat × BInfo)) :
    ∀ (ns : List Nat) (e : Err), collectObjs tab ns = .error e →
      e = unexpectedNullErr := by
  intro ns
  induction ns with
  | nil => intro e h; cases h
  | cons n rest ih =>
    intro e h
    cases hn : lookupA tab n with
    | none =>
      simp only [collectObjs, hn, assertNonNullE, Bind.bind, Except.bind] at h
      cases h
      rfl
    | some bi =>
      simp only [collectObjs, hn, assertNonNullE, Bind.bind, Except.bind] at h
      cases hr : collectObjs tab rest with
      | error e2 =>
        rw [hr] at h
        cases h
        exact ih _ hr
      | ok tail =>
        rw [hr] at h
        cases h

theorem collectObjs_ok_of_present (tab : List (Nat × BInfo)) :
    ∀ (ns : List Nat), (∀ n ∈ ns, (lookupA tab n).isSome = true) →
      collectObjs tab ns =
        .ok (ns.map (fun n => ((lookupA tab n).getD ⟨[], []⟩).objs)) := by
  intro ns
  induction ns with
  | nil => intro _; rfl
  | cons n rest ih =>
    intro hall
    cases hn : lookupA tab n with
    | none =>
      have := hall n (List.mem_cons_self _ _)
      rw [hn] at this
      cases this
    | some bi =>
      have hrest := ih (fun x hx => hall x (List.mem_cons_of_mem _ hx))
      simp only [collectObjs, hn, assertNonNullE, Bind.bind, Except.bind,
        hrest, List.map_cons]
      simp [hn]

theorem updateNode_error (nodeId : Nat) (nbrs : List Nat) (st : PSt)
    (c : Bool) (e : Err) :
    updateNode nodeId nbrs st c = .error e → e = unexpectedNullErr := by
  unfold updateNode
  cases hco : collectObjs st.tab
      (nbrs.filter (fun n => lookupA st.tstate n == some TState.done)) with
  | error e1 =>
    simp only [hco, Bind.bind, Except.bind]
    intro h
    cases h
    exact collectObjs_error _ _ _ hco
  | ok factsList =>
    simp only [hco, Bind.bind, Except.bind]
    cases hb : lookupA st.tab nodeId with
    | none =>
      simp only [assertNonNullE]
      intro h
      cases h
      rfl
    | some bi =>
      simp only [assertNonNullE]
      intro h
      cases h

theorem updateNode_ok_shape (nodeId : Nat) (nbrs : List Nat) (st : PSt)
    (c : Bool) (r : PSt × Bool) :
    updateNode nodeId nbrs st c = .ok r →
      ∃ objs, r.1 = ⟨setA st.tstate nodeId .done, updObjs st.tab nodeId objs⟩ := by
  unfold updateNode
  cases hco : collectObjs st.tab
      (nbrs.filter (fun n => lookupA st.tstate n == some TState.done)) with
  | error e1 =>
    simp only [hco, Bind.bind, Except.bind]
    intro h
    cases h
  | ok factsList =>
    simp only [hco, Bind.bind, Except.bind]
    cases hb : lookupA st.tab nodeId with
    | none =>
      simp only [assertNonNullE]
      intro h
      cases h
    | some bi =>
      simp only [assertNonNullE]
      intro h
      cases h
      exact ⟨_, rfl⟩

/-- The update applied at each visited block, given that the block and its
done neighbors are present in the fact table: the stored set is the
canonicalized union of the block's previous set with the intersection of
the done neighbors' sets, the block is marked done, and the changed flag is
extended by the content comparison of previous versus stored set. -/
theorem updateNode_eq (nodeId : Nat) (nbrs : List Nat) (st : PSt) (c : Bool)
    (bi : BInfo) (hb : lookupA st.tab nodeId = some bi)
    (hn : ∀ n ∈ nbrs.filter (fun n => lookupA st.tstate n == some TState.done),
      (lookupA st.tab n).isSome = true) :
    updateNode nodeId nbrs st c =
      .ok (⟨setA st.tstate nodeId .done,
        updObjs st.tab nodeId (reduceMaybeOptionalChains (SetUnion bi.objs
          (SetIntersect ((nbrs.filter
            (fun n => lookupA st.tstate n == some TState.done)).map
            (fun n => ((lookupA st.tab n).getD ⟨[], []⟩).objs)))))⟩,
        c || !SetEqual bi.objs (reduceMaybeOptionalChains (SetUnion bi.objs
          (SetIntersect ((nbrs.filter
            (fun n => lookupA st.tstate n == some TState.done)).map
            (fun n => ((lookupA st.tab n).getD ⟨[], []⟩).objs)))))) := by
  have hco := collectObjs_ok_of_present st.tab
    (nbrs.filter (fun n => lookupA st.tstate n == some TState.done)) hn
  unfold updateNode
  simp only [hco, Bind.bind, Except.bind, hb, assertNonNullE]

theorem visit_ok_shape (succMap : List (Nat × List Nat)) :
    ∀ (fuel : Nat) (dir : Direction) (b : Nat) (st : PSt) (r : PSt × Bool),
      visit succMap fuel dir b st = .ok r →
      ((∀ k, (lookupA st.tstate k).isSome = true →
        (lookupA r.1.tstate k).isSome = true) ∧
       predsProj r.1.tab = predsProj st.tab) := by
  intro fuel
  induction fuel with
  | zero => intro dir b st r h; simp only [visit] at h; cases h
  | succ fuel ih =>
    intro dir b st r h
    simp only [visit] at h
    by_cases hv : (lookupA st.tstate b).isSome = true
    · rw [if_pos hv] at h
      cases h
      exact ⟨fun k hk => hk, rfl⟩
    · rw [if_neg hv] at h
      have key : ∀ (dir' : Direction) (nbrs : List Nat),
          (List.foldlM (fun (acc : PSt × Bool) pred =>
              if (lookupA acc.1.tstate pred).isSome then .ok acc
              else do
                let r' ← visit succMap fuel dir' pred acc.1
                .ok (r'.1, acc.2 || r'.2))
            (({ st with tstate := setA st.tstate b TState.active } : PSt), false)
            nbrs >>= fun rr => updateNode b nbrs rr.1 rr.2) = .ok r →
          ((∀ k, (lookupA st.tstate k).isSome = true →
            (lookupA r.1.tstate k).isSome = true) ∧
           predsProj r.1.tab = predsProj st.tab) := by
        intro dir' nbrs hdo
        cases hfold : List.foldlM (fun (acc : PSt × Bool) pred =>
              if (lookupA acc.1.tstate pred).isSome then .ok acc
              else do
                let r' ← visit succMap fuel dir' pred acc.1
                .ok (r'.1, acc.2 || r'.2))
            (({ st with tstate := setA st.tstate b TState.active } : PSt), false)
            nbrs with
        | error e0 =>
          rw [hfold] at hdo
          cases hdo
        | ok rmid =>
          rw [hfold] at hdo
          simp only [Bind.bind, Except.bind] at hdo
          have hP := (foldlM_except_ok_or
            (fun (acc : PSt × Bool) pred =>
              if (lookupA acc.1.tstate pred).isSome then .ok acc
              else do
                let r' ← visit succMap fuel dir' pred acc.1
                .ok (r'.1, acc.2 || r'.2))
            (fun acc => (∀ k,
                (lookupA (setA st.tstate b TState.active) k).isSome = true →
                (lookupA acc.1.tstate k).isSome = true) ∧
              predsProj acc.1.tab = predsProj st.tab)
            (fun _ => True)
            nbrs ?hf
            (({ st with tstate := setA st.tstate b TState.active } : PSt), false)
            ⟨fun k hk => hk, rfl⟩).1 rmid hfold
          case hf =>
            intro acc pred _ hPacc
            constructor
            · intro racc hracc
              simp only [] at hracc
              by_cases hvp : (lookupA acc.1.tstate pred).isSome = true
              · rw [if_pos hvp] at hracc
                cases hracc
                exact hPacc
              · rw [if_neg hvp] at hracc
                cases hvis : visit succMap fuel dir' pred acc.1 with
                | error e1 =>
                  rw [hvis] at hracc
                  cases hracc
                | ok rv =>
                  rw [hvis] at hracc
                  simp only [Bind.bind, Except.bind] at hracc
                  cases hracc
                  obtain ⟨hm, hp⟩ := ih dir' pred acc.1 rv hvis
                  exact ⟨fun k hk => hm k (hPacc.1 k hk),
                    by rw [hp, hPacc.2]⟩
            · intro e _; trivial
          obtain ⟨objs, hshape⟩ := updateNode_ok_shape b nbrs rmid.1 rmid.2 r hdo
          constructor
          · intro k hk
            rw [hshape]
            exact lookupA_setA_isSome_mono _ _ _ _
              (hP.1 k (lookupA_setA_isSome_mono _ _ _ _ hk))
          · rw [hshape]
            simp only
            rw [predsProj_updObjs]
            exact hP.2
      cases htab : lookupA st.tab b with
      | none =>
        rw [htab] at h
        cases h
      | some node =>
        rw [htab] at h
        cases dir with
        | forward => exact key .forward node.preds h
        | backward => exact key .backward ((lookupA succMap b).getD []) h

/-- The error kinds of the source: a missing-node invariant (`Bad node` or
`Unexpected null`) or the iteration cap. -/
def missingNodeKind (e : Err) : Prop :=
  (∃ b dir, e = badNodeErr b dir) ∨ e = unexpectedNullErr

theorem badNodeErr_ne_fuelErr (b : Nat) (dir : Direction) :
    badNodeErr b dir ≠ fuelErr := by
  intro h
  have := congrArg Err.loc h
  simp [badNodeErr, fuelErr] at this

theorem unexpectedNullErr_ne_fuelErr : unexpectedNullErr ≠ fuelErr := by
  intro h
  have := congrArg Err.loc h
  simp [unexpectedNullErr, fuelErr] at this

theorem visit_error_cases (succMap : List (Nat × List Nat)) :
    ∀ (fuel : Nat) (dir : Direction) (b : Nat) (st : PSt) (e : Err),
      visit succMap fuel dir b st = .error e →
      e = fuelErr ∨ missingNodeKind e := by
  intro fuel
  induction fuel with
  | zero =>
    intro dir b st e h
    simp only [visit] at h
    cases h
    exact Or.inl rfl
  | succ fuel ih =>
    intro dir b st e h
    simp only [visit] at h
    by_cases hv : (lookupA st.tstate b).isSome = true
    · rw [if_pos hv] at h
      cases h
    · rw [if_neg hv] at h
      have key : ∀ (dir' : Direction) (nbrs : List Nat),
          (List.foldlM (fun (acc : PSt × Bool) pred =>
              if (lookupA acc.1.tstate pred).isSome then .ok acc
              else do
                let r' ← visit succMap fuel dir' pred acc.1
                .ok (r'.1, acc.2 || r'.2))
            (({ st with tstate := setA st.tstate b TState.active } : PSt), false)
            nbrs >>= fun rr => updateNode b nbrs rr.1 rr.2) = .error e →
          e = fuelErr ∨ missingNodeKind e := by
        intro dir' nbrs hdo
        cases hfold : List.foldlM (fun (acc : PSt × Bool) pred =>
              if (lookupA acc.1.tstate pred).isSome then .ok acc
              else do
                let r' ← visit succMap fuel dir' pred acc.1
                .ok (r'.1, acc.2 || r'.2))
            (({ st with tstate := setA st.tstate b TState.active } : PSt), false)
            nbrs with
        | error e0 =>
          rw [hfold] at hdo
          cases hdo
          exact (foldlM_except_ok_or
            (fun (acc : PSt × Bool) pred =>
              if (lookupA acc.1.tstate pred).isSome then .ok acc
              else do
                let r' ← visit succMap fuel dir' pred acc.1
                .ok (r'.1, acc.2 || r'.2))
            (fun _ => True)
            (fun e' => e' = fuelErr ∨ missingNodeKind e')
            nbrs
            (by
              intro acc pred _ _
              refine ⟨fun r _ => trivial, ?_⟩
              intro e' he'
              simp only [] at he'
              by_cases hvp : (lookupA acc.1.tstate pred).isSome = true
              · rw [if_pos hvp] at he'
                cases he'
              · rw [if_neg hvp] at he'
                cases hvis : visit succMap fuel dir' pred acc.1 with
                | error e1 =>
                  rw [hvis] at he'
                  cases he'
                  exact ih dir' pred acc.1 _ hvis
                | ok rv =>
                  rw [hvis] at he'
                  simp only [Bind.bind, Except.bind] at he'
                  cases he')
            (({ st with tstate := setA st.tstate b TState.active } : PSt), false)
            trivial).2 _ hfold
        | ok rmid =>
          rw [hfold] at hdo
          simp only [Bind.bind, Except.bind] at hdo
          exact Or.inr (Or.inr (updateNode_error b nbrs rmid.1 rmid.2 e hdo))
      cases htab : lookupA st.tab b with
      | none =>
        rw [htab] at h
        cases h
        exact Or.inr (Or.inl ⟨b, dir, rfl⟩)
      | some node =>
        rw [htab] at h
        cases dir with
        | forward => exact key .forward node.preds h
        | backward => exact key .backward ((lookupA succMap b).getD []) h

theorem lookupA_mem {α : Type} {tab : List (Nat × α)} {b : Nat} {bi : α}
    (h : lookupA tab b = some bi) : ∃ p ∈ tab, p.1 = b ∧ p.2 = bi := by
  unfold lookupA at h
  cases hf : tab.find? (fun p => p.1 == b) with
  | none => rw [hf] at h; cases h
  | some pr =>
    rw [hf] at h
    have hm := List.mem_of_find?_eq_some hf
    have hp := List.find?_some hf
    have hbi : pr.2 = bi := by simpa using h
    exact ⟨pr, hm, by simpa using hp, hbi⟩

/-- All predecessor lists recorded in a fact table stay inside the id
universe `U`. -/
def predsBounded (U : List Nat) (tab : List (Nat × BInfo)) : Prop :=
  ∀ p ∈ tab, p.2.preds ⊆ U

/-- All successor lists of the successor map stay inside `U`. -/
def succBounded (U : List Nat) (succMap : List (Nat × List Nat)) : Prop :=
  ∀ p ∈ succMap, p.2 ⊆ U

theorem predsBounded_of_proj {U : List Nat} {tab tab' : List (Nat × BInfo)}
    (h : predsProj tab' = predsProj tab) (hb : predsBounded U tab) :
    predsBounded U tab' := by
  intro p hp
  have hmem : (p.1, p.2.preds) ∈ predsProj tab' := by
    simp only [predsProj, List.mem_map]
    exact ⟨p, hp, rfl⟩
  rw [h] at hmem
  simp only [predsProj, List.mem_map] at hmem
  obtain ⟨q, hq, hEq⟩ := hmem
  have hpr : q.2.preds = p.2.preds := congrArg Prod.snd hEq
  rw [← hpr]
  exact hb q hq

theorem countUnvisited_setA_lt (U : List Nat) (ts : List (Nat × TState))
    (b : Nat) (v : TState) (hb : b ∈ U)
    (hun : (lookupA ts b).isSome = false) :
    countUnvisited U (setA ts b v) < countUnvisited U ts := by
  apply length_filter_lt (b := b)
  · intro x _ hx
    rw [Option.isNone_iff_eq_none] at hx ⊢
    cases hs : lookupA ts x with
    | none => rfl
    | some w =>
      have h1 : (lookupA ts x).isSome = true := by simp [hs]
      have h2 := lookupA_setA_isSome_mono ts b x v h1
      rw [hx] at h2
      simp at h2
  · exact hb
  · rw [Option.isNone_iff_eq_none]
    cases hs : lookupA ts b with
    | none => rfl
    | some w => rw [hs] at hun; cases hun
  · rw [lookupA_setA_self]
    rfl

theorem visit_no_fuel (succMap : List (Nat × List Nat)) (U : List Nat)
    (hS : succBounded U succMap) :
    ∀ (fuel : Nat) (dir : Direction) (b : Nat) (st : PSt), b ∈ U →
      predsBounded U st.tab → countUnvisited U st.tstate < fuel →
      visit succMap fuel dir b st ≠ .error fuelErr := by
  intro fuel
  induction fuel with
  | zero => intro dir b st _ _ hc; omega
  | succ fuel ih =>
    intro dir b st hb hpb hc
    simp only [visit]
    by_cases hv : (lookupA st.tstate b).isSome = true
    · rw [if_pos hv]
      intro h
      cases h
    · rw [if_neg hv]
      have hcount : countUnvisited U (setA st.tstate b TState.active) < fuel := by
        have := countUnvisited_setA_lt U st.tstate b TState.active hb
          (by simpa using hv)
        omega
      have key : ∀ (dir' : Direction) (nbrs : List Nat), nbrs ⊆ U →
          (List.foldlM (fun (acc : PSt × Bool) pred =>
              if (lookupA acc.1.tstate pred).isSome then .ok acc
              else do
                let r' ← visit succMap fuel dir' pred acc.1
                .ok (r'.1, acc.2 || r'.2))
            (({ st with tstate := setA st.tstate b TState.active } : PSt), false)
            nbrs >>= fun rr => updateNode b nbrs rr.1 rr.2) ≠ .error fuelErr := by
        intro dir' nbrs hnbrs
        cases hfold : List.foldlM (fun (acc : PSt × Bool) pred =>
              if (lookupA acc.1.tstate pred).isSome then .ok acc
              else do
                let r' ← visit succMap fuel dir' pred acc.1
                .ok (r'.1, acc.2 || r'.2))
            (({ st with tstate := setA st.tstate b TState.active } : PSt), false)
            nbrs with
        | error e0 =>
          have he0 := (foldlM_except_ok_or
            (fun (acc : PSt × Bool) pred =>
              if (lookupA acc.1.tstate pred).isSome then .ok acc
              else do
                let r' ← visit succMap fuel dir' pred acc.1
                .ok (r'.1, acc.2 || r'.2))
            (fun acc =>
              countUnvisited U acc.1.tstate ≤
                countUnvisited U (setA st.tstate b TState.active) ∧
              predsBounded U acc.1.tab)
            (fun e' => e' ≠ fuelErr)
            nbrs
            (by
              intro acc pred hpred hPacc
              constructor
              · intro racc hracc
                simp only [] at hracc
                by_cases hvp : (lookupA acc.1.tstate pred).isSome = true
                · rw [if_pos hvp] at hracc
                  cases hracc
                  exact hPacc
                · rw [if_neg hvp] at hracc
                  cases hvis : visit succMap fuel dir' pred acc.1 with
                  | error e1 =>
                    rw [hvis] at hracc
                    cases hracc
                  | ok rv =>
                    rw [hvis] at hracc
                    simp only [Bind.bind, Except.bind] at hracc
                    cases hracc
                    obtain ⟨hm, hp⟩ := visit_ok_shape succMap fuel dir' pred
                      acc.1 rv hvis
                    exact ⟨le_trans (countUnvisited_mono hm) hPacc.1,
                      predsBounded_of_proj hp hPacc.2⟩
              · intro e' he'
                simp only [] at he'
                by_cases hvp : (lookupA acc.1.tstate pred).isSome = true
                · rw [if_pos hvp] at he'
                  cases he'
                · rw [if_neg hvp] at he'
                  cases hvis : visit succMap fuel dir' pred acc.1 with
                  | error e1 =>
                    rw [hvis] at he'
                    cases he'
                    intro hEq
                    rw [hEq] at hvis
                    exact ih dir' pred acc.1 (hnbrs hpred) hPacc.2
                      (Nat.lt_of_le_of_lt hPacc.1 hcount) hvis
                  | ok rv =>
                    rw [hvis] at he'
                    simp only [Bind.bind, Except.bind] at he'
                    cases he')
            (({ st with tstate := setA st.tstate b TState.active } : PSt), false)
            ⟨le_refl _, hpb⟩).2 e0 hfold
          intro hcon
          simp only [Bind.bind, Except.bind] at hcon
          cases hcon
          exact he0 rfl
        | ok rmid =>
          intro hcon
          simp only [Bind.bind, Except.bind] at hcon
          have := updateNode_error b nbrs rmid.1 rmid.2 fuelErr hcon
          exact unexpectedNullErr_ne_fuelErr this.symm
      cases htab : lookupA st.tab b with
      | none =>
        intro hcon
        have hbe : badNodeErr b dir = fuelErr := by injection hcon
        exact badNodeErr_ne_fuelErr b dir hbe
      | some node =>
        cases dir with
        | forward =>
          apply key .forward node.preds
          obtain ⟨p, hp, hp1, hp2⟩ := lookupA_mem htab
          rw [← hp2]
          exact hpb p hp
        | backward =>
          apply key .backward ((lookupA succMap b).getD [])
          cases hsucc : lookupA succMap b with
          | none => simp
          | some s =>
            simp only [Option.getD_some]
            obtain ⟨p, hp, hp1, hp2⟩ := lookupA_mem hsucc
            rw [← hp2]
            exact hS p hp

theorem setA_mem {α : Type} {l : List (Nat × α)} {k : Nat} {v : α}
    {p : Nat × α} (h : p ∈ setA l k v) : p = (k, v) ∨ p ∈ l := by
  unfold setA at h
  split at h
  · obtain ⟨q, hq, hEq⟩ := List.mem_map.1 h
    by_cases hk : q.1 = k
    · rw [if_pos hk] at hEq
      exact Or.inl hEq.symm
    · rw [if_neg hk] at hEq
      exact Or.inr (hEq ▸ hq)
  · rcases List.mem_append.1 h with h1 | h2
    · exact Or.inr h1
    · simp only [List.mem_singleton] at h2
      exact Or.inl h2

theorem saddN_sub {s : List Nat} {x y : Nat} (h : y ∈ saddN s x) :
    y ∈ s ∨ y = x := by
  unfold saddN at h
  split at h
  · exact Or.inl h
  · rcases List.mem_append.1 h with h1 | h2
    · exact Or.inl h1
    · simp only [List.mem_singleton] at h2
      exact Or.inr h2

theorem buildSuccMap_sub (blocks : List BasicBlock) :
    ∀ p ∈ buildSuccMap blocks, p.2 ⊆ blocks.map (·.id) := by
  refine foldl_invariant
    (fun m block =>
      List.foldl
        (fun m' pred =>
          match lookupA m' pred with
          | some s => setA m' pred (saddN s block.id)
          | none => m' ++ [(pred, [block.id])])
        m block.preds)
    (fun m => ∀ p ∈ m, p.2 ⊆ blocks.map (·.id))
    blocks [] (fun p hp => absurd hp (List.not_mem_nil p)) ?_
  · intro m block hblock hm
    refine foldl_invariant
      (fun m' pred =>
        match lookupA m' pred with
        | some s => setA m' pred (saddN s block.id)
        | none => m' ++ [(pred, [block.id])])
      (fun m' => ∀ p ∈ m', p.2 ⊆ blocks.map (·.id))
      block.preds m hm ?_
    · intro m' pred _ hm'
      simp only []
      have hid : block.id ∈ blocks.map (·.id) :=
        List.mem_map.2 ⟨block, hblock, rfl⟩
      cases hl : lookupA m' pred with
      | some s =>
        intro p hp
        rcases setA_mem hp with rfl | hpm
        · intro y hy
          rcases saddN_sub hy with hys | rfl
          · obtain ⟨q, hq, hq1, hq2⟩ := lookupA_mem hl
            exact hm' q hq (hq2 ▸ hys)
          · exact hid
        · exact hm' p hpm
      | none =>
        intro p hp
        rcases List.mem_append.1 hp with h1 | h2
        · exact hm' p h1
        · simp only [List.mem_singleton] at h2
          subst h2
          intro y hy
          simp only [List.mem_singleton] at hy
          subst hy
          exact hid

theorem propagateUniverse_tab (blocks : List BasicBlock)
    (tab : List (Nat × BInfo)) :
    predsBounded (propagateUniverse blocks tab) tab := by
  intro p hp x hx
  unfold propagateUniverse
  rw [List.mem_dedup]
  apply List.mem_append.2
  right
  rw [List.mem_flatten]
  exact ⟨p.2.preds, List.mem_map.2 ⟨p, hp, rfl⟩, hx⟩

theorem propagateUniverse_ids (blocks : List BasicBlock)
    (tab : List (Nat × BInfo)) :
    blocks.map (·.id) ⊆ propagateUniverse blocks tab := by
  intro x hx
  unfold propagateUniverse
  rw [List.mem_dedup]
  exact List.mem_append.2 (Or.inl hx)

theorem runSweep_cases (succMap : List (Nat × List Nat)) (U : List Nat)
    (hS : succBounded U succMap) (fuel : Nat) (dir : Direction)
    (order : List Nat) (st : PSt) (horder : order ⊆ U)
    (hpb : predsBounded U st.tab) (hfuel : U.length < fuel) :
    (∀ r, runSweep succMap fuel dir order st = .ok r →
      predsBounded U r.1.tab) ∧
    (∀ e, runSweep succMap fuel dir order st = .error e →
      missingNodeKind e) := by
  unfold runSweep
  exact foldlM_except_ok_or
    (fun (acc : PSt × Bool) blockId => do
      let r ← visit succMap fuel dir blockId acc.1
      .ok (r.1, acc.2 || r.2))
    (fun acc => predsBounded U acc.1.tab)
    missingNodeKind
    order
    (by
      intro acc blockId hmem hP
      constructor
      · intro r hr
        simp only [] at hr
        cases hvis : visit succMap fuel dir blockId acc.1 with
        | error e1 =>
          rw [hvis] at hr
          cases hr
        | ok rv =>
          rw [hvis] at hr
          simp only [Bind.bind, Except.bind] at hr
          cases hr
          exact predsBounded_of_proj
            (visit_ok_shape succMap fuel dir blockId acc.1 rv hvis).2 hP
      · intro e he
        simp only [] at he
        cases hvis : visit succMap fuel dir blockId acc.1 with
        | error e1 =>
          rw [hvis] at he
          cases he
          rcases visit_error_cases succMap fuel dir blockId acc.1 _ hvis with
            hf | hmk
          · exact absurd hvis (by
              rw [hf]
              exact visit_no_fuel succMap U hS fuel dir blockId acc.1
                (horder hmem) hP
                (Nat.lt_of_le_of_lt (countUnvisited_le U acc.1.tstate) hfuel))
          · exact hmk
        | ok rv =>
          rw [hvis] at he
          simp only [Bind.bind, Except.bind] at he
          cases he)
    (st, false) hpb

theorem loopIter_cases (succMap : List (Nat × List Nat)) (U : List Nat)
    (hS : succBounded U succMap) (fuel : Nat) (order revOrder : List Nat)
    (horder : order ⊆ U) (hrev : revOrder ⊆ U) (hfuel : U.length < fuel) :
    ∀ (rem : Nat) (tab : List (Nat × BInfo)), predsBounded U tab →
      ∀ e, loopIter succMap fuel order revOrder rem tab = .error e →
        e = capErr ∨ missingNodeKind e := by
  intro rem
  induction rem with
  | zero =>
    intro tab _ e h
    cases h
    exact Or.inl rfl
  | succ rem ih =>
    intro tab hpb e h
    simp only [loopIter] at h
    cases hF : runSweep succMap fuel .forward order ⟨[], tab⟩ with
    | error e0 =>
      rw [hF] at h
      simp only [Bind.bind, Except.bind] at h
      cases h
      exact Or.inr ((runSweep_cases succMap U hS fuel .forward order
        ⟨[], tab⟩ horder hpb hfuel).2 _ hF)
    | ok rF =>
      rw [hF] at h
      simp only [Bind.bind, Except.bind] at h
      have hpbF : predsBounded U rF.1.tab :=
        (runSweep_cases succMap U hS fuel .forward order
          ⟨[], tab⟩ horder hpb hfuel).1 rF hF
      cases hB : runSweep succMap fuel .backward revOrder ⟨[], rF.1.tab⟩ with
      | error e1 =>
        rw [hB] at h
        cases h
        exact Or.inr ((runSweep_cases succMap U hS fuel .backward revOrder
          ⟨[], rF.1.tab⟩ hrev hpbF hfuel).2 _ hB)
      | ok rB =>
        rw [hB] at h
        simp only [Bind.bind, Except.bind] at h
        have hpbB : predsBounded U rB.1.tab :=
          (runSweep_cases succMap U hS fuel .backward revOrder
            ⟨[], rF.1.tab⟩ hrev hpbF hfuel).1 rB hB
        by_cases hch : (rF.2 || rB.2) = true
        · rw [if_pos hch] at h
          exact ih rB.1.tab hpbB e h
        · rw [if_neg hch] at h
          cases h

theorem propagateNonNull_error_cases (blocks : List BasicBlock)
    (tab : List (Nat × BInfo)) (e : Err)
    (h : propagateNonNull blocks tab = .error e) :
    e = capErr ∨ missingNodeKind e := by
  unfold propagateNonNull at h
  refine loopIter_cases (buildSuccMap blocks) (propagateUniverse blocks tab)
    ?_ _ _ _ ?_ ?_ (by omega) 100 tab (propagateUniverse_tab blocks tab) e h
  · intro p hp
    exact fun y hy =>
      propagateUniverse_ids blocks tab (buildSuccMap_sub blocks p hp hy)
  · exact propagateUniverse_ids blocks tab
  · intro x hx
    rw [List.mem_reverse] at hx
    exact propagateUniverse_ids blocks tab hx

theorem getOrCreateProperty_idem (ts : TreeState)
    (n : ReactiveScopeDependency) :
    getOrCreateProperty (getOrCreateProperty ts n).2 n =
      ((getOrCreateProperty ts n).1, (getOrCreateProperty ts n).2) := by
  have hroot : lookupDep (getOrCreateIdentifier ts n.identifier).2
      ⟨n.identifier.id, []⟩ = some (getOrCreateIdentifier ts n.identifier).1 :=
    getOrCreateNode_found ts _
  have hroot' : lookupDep (chainFrom (getOrCreateIdentifier ts n.identifier).2
      (⟨n.identifier.id, []⟩, (getOrCreateIdentifier ts n.identifier).1)
      n.path).2 ⟨n.identifier.id, []⟩ =
      some (getOrCreateIdentifier ts n.identifier).1 :=
    chainFrom_preserves _ _ _ _ _ hroot
  have h2 : getOrCreateIdentifier (chainFrom
      (getOrCreateIdentifier ts n.identifier).2
      (⟨n.identifier.id, []⟩, (getOrCreateIdentifier ts n.identifier).1)
      n.path).2 n.identifier =
      ((getOrCreateIdentifier ts n.identifier).1,
        (chainFrom (getOrCreateIdentifier ts n.identifier).2
          (⟨n.identifier.id, []⟩, (getOrCreateIdentifier ts n.identifier).1)
          n.path).2) :=
    getOrCreateNode_of_found hroot'
  calc getOrCreateProperty (getOrCreateProperty ts n).2 n
      = chainFrom (getOrCreateIdentifier (getOrCreateProperty ts n).2
          n.identifier).2
        (⟨n.identifier.id, []⟩,
          (getOrCreateIdentifier (getOrCreateProperty ts n).2 n.identifier).1)
        n.path := rfl
    _ = chainFrom (chainFrom (getOrCreateIdentifier ts n.identifier).2
          (⟨n.identifier.id, []⟩, (getOrCreateIdentifier ts n.identifier).1)
          n.path).2
        (⟨n.identifier.id, []⟩, (getOrCreateIdentifier ts n.identifier).1)
        n.path := by rw [show (getOrCreateProperty ts n).2 = (chainFrom
          (getOrCreateIdentifier ts n.identifier).2
          (⟨n.identifier.id, []⟩, (getOrCreateIdentifier ts n.identifier).1)
          n.path).2 from rfl, h2]
    _ = ((getOrCreateProperty ts n).1, (getOrCreateProperty ts n).2) :=
        chainFrom_idem n.path _ _

theorem getOrCreateProperty_preserves (ts : TreeState)
    (n : ReactiveScopeDependency) (d' : Dep) (i : Nat)
    (h : lookupDep ts d' = some i) :
    lookupDep (getOrCreateProperty ts n).2 d' = some i :=
  chainFrom_preserves _ _ _ _ _ (getOrCreateNode_preserves _ _ _ _ h)

theorem getOrCreateProperty_domain (ts : TreeState)
    (n : ReactiveScopeDependency) (d' : Dep) :
    (lookupDep (getOrCreateProperty ts n).2 d').isSome = true ↔
      ((lookupDep ts d').isSome = true ∨ d' ∈ resolveDeps n) := by
  unfold getOrCreateProperty
  rw [chainFrom_domain]
  unfold getOrCreateIdentifier
  rw [getOrCreateNode_domain]
  simp only [resolveDeps, List.mem_cons]
  tauto

theorem collectHoistable_error_cases (fn : HIRFunction)
    (temporaries optionals : List (Nat × ReactiveScopeDependency)) (e : Err)
    (h : collectHoistablePropertyLoads fn temporaries optionals = .error e) :
    e = capErr ∨ missingNodeKind e := by
  unfold collectHoistablePropertyLoads at h
  simp only [] at h
  cases hp : propagateNonNull fn.blocks (collectNonNullsInBlocks fn
      (temporaries.filter (fun p => decide
        (p.1 ∉ collectFunctionExpressionRValues fn))) optionals) with
  | error e0 =>
    rw [hp] at h
    simp only [Except.map] at h
    cases h
    exact propagateNonNull_error_cases _ _ _ hp
  | ok t' =>
    rw [hp] at h
    simp only [Except.map] at h
    cases h

/-! Claim theorems. -/

/-- C1, counterexample: the stored fact set of a visited block is *not* in
general the plain union of its previous facts with the intersection of its
done neighbors' facts. A single block with facts `{a, a?.b}` and no
neighbors stores the canonicalized set `{a, a.b}`, which differs from the
plain union `{a, a?.b}`. -/
theorem propagate_stored_not_plain_union :
    propagateNonNull [⟨0, [], [], .other⟩]
      [(0, ⟨[], [⟨0, []⟩, ⟨0, [⟨"b", true⟩]⟩]⟩)] =
      .ok [(0, ⟨[], [⟨0, []⟩, ⟨0, [⟨"b", false⟩]⟩]⟩)] ∧
    SetUnion [⟨0, []⟩, ⟨0, [⟨"b", true⟩]⟩] (SetIntersect []) ≠
      [⟨0, []⟩, ⟨0, [⟨"b", false⟩]⟩] :=
  ⟨rfl, by decide⟩

/-- C1 (amended): during each sweep, for every block visited, the stored
fact set is the *optional-chain-canonicalized* union of the block's
previous fact set with the intersection of the fact sets of the neighbors
whose traversal state is done (active neighbors excluded rather than
contributing an empty set); consequently, with two done predecessors of
which only one proves a node, forward propagation does not add that node,
but with both proving it the block includes it. -/
theorem propagate_update_canonicalized_union :
    (∀ (nodeId : Nat) (nbrs : List Nat) (st : PSt) (c : Bool) (bi : BInfo),
      lookupA st.tab nodeId = some bi →
      (∀ n ∈ nbrs.filter (fun n => lookupA st.tstate n == some TState.done),
        (lookupA st.tab n).isSome = true) →
      updateNode nodeId nbrs st c =
        .ok (⟨setA st.tstate nodeId .done,
          updObjs st.tab nodeId (reduceMaybeOptionalChains (SetUnion bi.objs
            (SetIntersect ((nbrs.filter
              (fun n => lookupA st.tstate n == some TState.done)).map
              (fun n => ((lookupA st.tab n).getD ⟨[], []⟩).objs)))))⟩,
          c || !SetEqual bi.objs (reduceMaybeOptionalChains (SetUnion bi.objs
            (SetIntersect ((nbrs.filter
              (fun n => lookupA st.tstate n == some TState.done)).map
              (fun n => ((lookupA st.tab n).getD ⟨[], []⟩).objs))))))) ∧
    propagateNonNull
      [⟨1, [], [], .other⟩, ⟨2, [], [], .other⟩, ⟨3, [], [1, 2], .other⟩]
      [(1, ⟨[], [⟨7, [⟨"y", false⟩]⟩]⟩), (2, ⟨[], []⟩), (3, ⟨[1, 2], []⟩)] =
      .ok [(1, ⟨[], [⟨7, [⟨"y", false⟩]⟩]⟩), (2, ⟨[], []⟩),
        (3, ⟨[1, 2], []⟩)] ∧
    propagateNonNull
      [⟨1, [], [], .other⟩, ⟨2, [], [], .other⟩, ⟨3, [], [1, 2], .other⟩]
      [(1, ⟨[], [⟨7, [⟨"y", false⟩]⟩]⟩), (2, ⟨[], [⟨7, [⟨"y", false⟩]⟩]⟩),
        (3, ⟨[1, 2], []⟩)] =
      .ok [(1, ⟨[], [⟨7, [⟨"y", false⟩]⟩]⟩),
        (2, ⟨[], [⟨7, [⟨"y", false⟩]⟩]⟩),
        (3, ⟨[1, 2], [⟨7, [⟨"y", false⟩]⟩]⟩)] :=
  ⟨fun nodeId nbrs st c bi hb hn => updateNode_eq nodeId nbrs st c bi hb hn,
    rfl, rfl⟩

/-- Witness for C1's update equation at a concrete state: block 0 with one
done neighbor 1 whose fact set is `{y.y}`. -/
theorem propagate_update_canonicalized_union_witness :
    updateNode 0 [1]
      ⟨[(1, TState.done)], [(0, ⟨[1], []⟩), (1, ⟨[], [⟨7, [⟨"y", false⟩]⟩]⟩)]⟩
      false =
      .ok (⟨setA [(1, TState.done)] 0 .done,
        updObjs [(0, ⟨[1], []⟩), (1, ⟨[], [⟨7, [⟨"y", false⟩]⟩]⟩)] 0
          (reduceMaybeOptionalChains (SetUnion
            (BInfo.mk [1] []).objs
            (SetIntersect (([1].filter (fun n =>
              lookupA [(1, TState.done)] n == some TState.done)).map
              (fun n => ((lookupA ([(0, ⟨[1], []⟩),
                (1, ⟨[], [⟨7, [⟨"y", false⟩]⟩]⟩)] :
                  List (Nat × BInfo)) n).getD
                  ⟨[], []⟩).objs)))))⟩,
        false || !SetEqual (BInfo.mk [1] []).objs
          (reduceMaybeOptionalChains (SetUnion (BInfo.mk [1] []).objs
            (SetIntersect (([1].filter (fun n =>
              lookupA [(1, TState.done)] n == some TState.done)).map
              (fun n => ((lookupA ([(0, ⟨[1], []⟩),
                (1, ⟨[], [⟨7, [⟨"y", false⟩]⟩]⟩)] :
                  List (Nat × BInfo)) n).getD
                  ⟨[], []⟩).objs)))))) :=
  propagate_update_canonicalized_union.1 0 [1]
    ⟨[(1, TState.done)], [(0, ⟨[1], []⟩), (1, ⟨[], [⟨7, [⟨"y", false⟩]⟩]⟩)]⟩
    false ⟨[1], []⟩ rfl (by decide)

/-- C2, counterexample: a candidate set containing the nodes for `a.b`
(unconditional) and `a?.b.c` is left unchanged by the canonicalizer — the
rewrite of the optional segment `?.b` requires the known-non-null set to
contain the node for the accumulated prefix `a`, not `a.b` — so the node
for `a.b.c` does not appear. -/
theorem reduce_chain_prefix_ab_no_collapse :
    reduceMaybeOptionalChains
      [⟨0, [⟨"b", false⟩]⟩, ⟨0, [⟨"b", true⟩, ⟨"c", false⟩]⟩] =
      [⟨0, [⟨"b", false⟩]⟩, ⟨0, [⟨"b", true⟩, ⟨"c", false⟩]⟩] ∧
    (⟨0, [⟨"b", false⟩, ⟨"c", false⟩]⟩ : Dep) ∉ reduceMaybeOptionalChains
      [⟨0, [⟨"b", false⟩]⟩, ⟨0, [⟨"b", true⟩, ⟨"c", false⟩]⟩] :=
  ⟨by decide, by decide⟩

/-- C2 (amended): with `{a.b, a?.b.c}` the canonicalizer changes nothing,
because rewriting the optional segment `?.b` consults the node for the
prefix `a`; with `{a, a?.b.c}` it replaces `a?.b.c` by `a.b.c`, and
re-running it on either result is a no-op. -/
theorem reduce_chain_root_prefix_collapse :
    reduceMaybeOptionalChains
      [⟨0, [⟨"b", false⟩]⟩, ⟨0, [⟨"b", true⟩, ⟨"c", false⟩]⟩] =
      [⟨0, [⟨"b", false⟩]⟩, ⟨0, [⟨"b", true⟩, ⟨"c", false⟩]⟩] ∧
    reduceMaybeOptionalChains [⟨0, []⟩, ⟨0, [⟨"b", true⟩, ⟨"c", false⟩]⟩] =
      [⟨0, []⟩, ⟨0, [⟨"b", false⟩, ⟨"c", false⟩]⟩] ∧
    reduceMaybeOptionalChains [⟨0, []⟩, ⟨0, [⟨"b", false⟩, ⟨"c", false⟩]⟩] =
      [⟨0, []⟩, ⟨0, [⟨"b", false⟩, ⟨"c", false⟩]⟩] :=
  ⟨by decide, by decide, by decide⟩

/-- C3, counterexample: when the re-walk of `a?.b` (with `a` known) lands on
`a.b`, the canonicalizer only *adds* the new node to the known-non-null
set; the original `a?.b` remains a member, so it is not replaced there. -/
theorem reduce_known_retains_original :
    (passRun (pmeasure [⟨0, [⟨"b", true⟩]⟩] + 1)
      ⟨[⟨0, [⟨"b", true⟩]⟩], [⟨0, []⟩, ⟨0, [⟨"b", true⟩]⟩],
        [⟨0, []⟩, ⟨0, [⟨"b", true⟩]⟩]⟩
      [⟨0, [⟨"b", true⟩]⟩] false).1.known =
      [⟨0, []⟩, ⟨0, [⟨"b", true⟩]⟩, ⟨0, [⟨"b", false⟩]⟩] ∧
    (⟨0, [⟨"b", true⟩]⟩ : Dep) ∈ (passRun (pmeasure [⟨0, [⟨"b", true⟩]⟩] + 1)
      ⟨[⟨0, [⟨"b", true⟩]⟩], [⟨0, []⟩, ⟨0, [⟨"b", true⟩]⟩],
        [⟨0, []⟩, ⟨0, [⟨"b", true⟩]⟩]⟩
      [⟨0, [⟨"b", true⟩]⟩] false).1.known :=
  ⟨by decide, by decide⟩

/-- C3 (amended): the canonicalizer re-walks each member's path from the
root, rewriting a segment to unconditional exactly when it is optional and
the accumulated prefix node is in the known-non-null set; when the re-walk
ends at a different terminal node, the original is replaced by the new node
in the candidate set and in the working optional-chain set, while the new
node is only *added* to the known-non-null set (the original remains a
member there); the pass repeats until a full pass produces no change. -/
theorem reduce_replacement_step_equation :
    (∀ (known : List Dep) (root : Nat) (acc : List PathEntry) (e : PathEntry)
        (rest : List PathEntry),
      walkPath known root acc (e :: rest) =
        (if e.optional ∧ (Dep.mk root acc) ∈ known then unopt e else e) ::
          walkPath known root
            (acc ++ [if e.optional ∧ (Dep.mk root acc) ∈ known then unopt e
              else e]) rest) ∧
    (∀ (fuel : Nat) (st : RedState) (orig : Dep) (rest : List Dep) (c : Bool),
      walkDep st.known orig ≠ orig →
      passRun (fuel + 1) st (orig :: rest) c =
        passRun fuel
          ⟨sadd (sdel st.ocn orig) (walkDep st.known orig),
            sadd (sdel st.nodes orig) (walkDep st.known orig),
            sadd st.known (walkDep st.known orig)⟩
          (rest ++ if walkDep st.known orig ∈ sdel st.ocn orig then []
            else [walkDep st.known orig]) true) ∧
    (∀ (fuel : Nat) (st : RedState),
      reduceLoop (fuel + 1) st =
        (if (passRun (pmeasure st.ocn + 1) st st.ocn false).2 then
          reduceLoop fuel (passRun (pmeasure st.ocn + 1) st st.ocn false).1
        else ((passRun (pmeasure st.ocn + 1) st st.ocn false).1, true))) := by
  refine ⟨fun known root acc e rest => rfl, ?_, fun fuel st => rfl⟩
  intro fuel st orig rest c h
  simp only [passRun, if_neg h]

/-- Witness for C3's replacement step at a concrete state: the set
`{a, a?.b}` with `a?.b` pending. -/
theorem reduce_replacement_step_equation_witness :
    passRun 1
      ⟨[⟨0, [⟨"b", true⟩]⟩], [⟨0, []⟩, ⟨0, [⟨"b", true⟩]⟩],
        [⟨0, []⟩, ⟨0, [⟨"b", true⟩]⟩]⟩
      [⟨0, [⟨"b", true⟩]⟩] false =
      passRun 0
        ⟨sadd (sdel [⟨0, [⟨"b", true⟩]⟩] ⟨0, [⟨"b", true⟩]⟩)
          (walkDep [⟨0, []⟩, ⟨0, [⟨"b", true⟩]⟩] ⟨0, [⟨"b", true⟩]⟩),
          sadd (sdel [⟨0, []⟩, ⟨0, [⟨"b", true⟩]⟩] ⟨0, [⟨"b", true⟩]⟩)
            (walkDep [⟨0, []⟩, ⟨0, [⟨"b", true⟩]⟩] ⟨0, [⟨"b", true⟩]⟩),
          sadd [⟨0, []⟩, ⟨0, [⟨"b", true⟩]⟩]
            (walkDep [⟨0, []⟩, ⟨0, [⟨"b", true⟩]⟩] ⟨0, [⟨"b", true⟩]⟩)⟩
        ([] ++ if walkDep [⟨0, []⟩, ⟨0, [⟨"b", true⟩]⟩] ⟨0, [⟨"b", true⟩]⟩ ∈
            sdel [⟨0, [⟨"b", true⟩]⟩] ⟨0, [⟨"b", true⟩]⟩ then []
          else [walkDep [⟨0, []⟩, ⟨0, [⟨"b", true⟩]⟩] ⟨0, [⟨"b", true⟩]⟩])
        true :=
  reduce_replacement_step_equation.2.1 0
    ⟨[⟨0, [⟨"b", true⟩]⟩], [⟨0, []⟩, ⟨0, [⟨"b", true⟩]⟩],
      [⟨0, []⟩, ⟨0, [⟨"b", true⟩]⟩]⟩
    ⟨0, [⟨"b", true⟩]⟩ [] false (by decide)

/-- C4: resolving the same dependency twice returns the identical node (and
leaves the trie unchanged); resolving `a.b` then `a.b.c` allocates `a.b`
exactly once; and a resolve touches exactly the root of the dependency and
the prefixes of its path — existing nodes keep their allocation ids, and the
created nodes are exactly the missing prefixes. -/
theorem tree_resolve_canonical_dedup :
    (∀ (ts : TreeState) (n : ReactiveScopeDependency),
      getOrCreateProperty (getOrCreateProperty ts n).2 n =
        ((getOrCreateProperty ts n).1, (getOrCreateProperty ts n).2)) ∧
    ((getOrCreateProperty (getOrCreateProperty ⟨[], 0⟩
        ⟨⟨1, none, ⟨0, 0⟩, none⟩, [⟨"b", false⟩]⟩).2
        ⟨⟨1, none, ⟨0, 0⟩, none⟩, [⟨"b", false⟩, ⟨"c", false⟩]⟩).2.alloc.countP
      (fun p => p.1 == (⟨1, [⟨"b", false⟩]⟩ : Dep))) = 1 ∧
    (∀ (ts : TreeState) (n : ReactiveScopeDependency) (d' : Dep),
      ((lookupDep (getOrCreateProperty ts n).2 d').isSome = true ↔
        ((lookupDep ts d').isSome = true ∨ d' ∈ resolveDeps n)) ∧
      (∀ i, lookupDep ts d' = some i →
        lookupDep (getOrCreateProperty ts n).2 d' = some i)) :=
  ⟨getOrCreateProperty_idem, by decide,
    fun ts n d' => ⟨getOrCreateProperty_domain ts n d',
      fun i h => getOrCreateProperty_preserves ts n d' i h⟩⟩

/-- Witness for C4's preservation part: a trie already holding the root node
of identifier 5 keeps it, with the same allocation id, across resolving an
unrelated dependency. -/
theorem tree_resolve_canonical_dedup_witness :
    lookupDep (getOrCreateProperty ⟨[(⟨5, []⟩, 0)], 1⟩
      ⟨⟨9, none, ⟨0, 0⟩, none⟩, []⟩).2 ⟨5, []⟩ = some 0 :=
  (tree_resolve_canonical_dedup.2.2 ⟨[(⟨5, []⟩, 0)], 1⟩
    ⟨⟨9, none, ⟨0, 0⟩, none⟩, []⟩ ⟨5, []⟩).2 0 (by decide)

/-- C5: the outer fixed-point loop is capped at 100 iterations; reaching
iteration 100 with changes still reported aborts with the fatal invariant
error carrying the reason string and the generated source location, and no
fact table is returned in that case; below the cap an iteration runs one
forward and one backward sweep and repeats only while a sweep changed
something. -/
theorem propagate_iteration_cap :
    (∀ (succMap : List (Nat × List Nat)) (fuel : Nat)
        (order revOrder : List Nat) (tab : List (Nat × BInfo)),
      loopIter succMap fuel order revOrder 0 tab = .error capErr) ∧
    (∀ (succMap : List (Nat × List Nat)) (fuel : Nat)
        (order revOrder : List Nat) (rem : Nat) (tab : List (Nat × BInfo)),
      loopIter succMap fuel order revOrder (rem + 1) tab = do
        let rF ← runSweep succMap fuel .forward order ⟨[], tab⟩
        let rB ← runSweep succMap fuel .backward revOrder ⟨[], rF.1.tab⟩
        if rF.2 || rB.2 then
          loopIter succMap fuel order revOrder rem rB.1.tab
        else .ok rB.1.tab) ∧
    (∀ (blocks : List BasicBlock) (tab : List (Nat × BInfo)),
      propagateNonNull blocks tab =
        loopIter (buildSuccMap blocks)
          ((propagateUniverse blocks tab).length + 1)
          (blocks.map (·.id)) (blocks.map (·.id)).reverse 100 tab) ∧
    capErr.reason =
      "[CollectHoistablePropertyLoads] fixed point iteration did not terminate after 100 loops" ∧
    capErr.loc = SourceLoc.generated :=
  ⟨fun _ _ _ _ _ => rfl, fun _ _ _ _ _ _ => rfl, fun _ _ => rfl, rfl, rfl⟩

/-- C6: every failure of the pass is either the iteration-cap invariant or a
missing-fact-table-entry invariant (`Bad node …` from the explicit check, or
`Unexpected null` from `assertNonNull`); and a block graph referencing a
block absent from the fact table does fail with the missing-node error. -/
theorem propagate_failure_modes :
    (∀ (fn : HIRFunction)
        (temporaries optionals : List (Nat × ReactiveScopeDependency))
        (e : Err),
      collectHoistablePropertyLoads fn temporaries optionals = .error e →
      e = capErr ∨ missingNodeKind e) ∧
    collectHoistablePropertyLoads
      ⟨[], .other, .otherSetting, [⟨0, [], [1], .other⟩]⟩ [] [] =
      .error (badNodeErr 1 .forward) :=
  ⟨fun fn t o e h => collectHoistable_error_cases fn t o e h, rfl⟩

/-- Witness for C6 at the concrete one-block function whose only block lists
the absent block 1 as predecessor. -/
theorem propagate_failure_modes_witness :
    badNodeErr 1 .forward = capErr ∨ missingNodeKind (badNodeErr 1 .forward) :=
  propagate_failure_modes.1 ⟨[], .other, .otherSetting, [⟨0, [], [1], .other⟩]⟩
    [] [] (badNodeErr 1 .forward) (by rfl)

/-- C7: the canonicalizer's repeat-until-no-change loop, as invoked by
`reduceMaybeOptionalChains` with its fuel bound, always reaches a pass that
changes nothing: the reported flag is true for every duplicate-free input
set. -/
theorem reduce_loop_terminates (nodes : List Dep) (h : nodes.Nodup) :
    (reduceLoop (((nodes.filter hasOptional).map optCount).sum + 1)
      ⟨nodes.filter hasOptional, nodes, nodes⟩).2 = true := by
  apply reduceLoop_completes
  · exact h.filter _
  · simp only [socn]
    exact Nat.lt_succ_self _

/-- Witness for C7 on the concrete set `{a, a?.b}`. -/
theorem reduce_loop_terminates_witness :
    (reduceLoop ((([⟨0, []⟩, ⟨0, [⟨"b", true⟩]⟩].filter hasOptional).map
        optCount).sum + 1)
      ⟨[⟨0, []⟩, ⟨0, [⟨"b", true⟩]⟩].filter hasOptional,
        [⟨0, []⟩, ⟨0, [⟨"b", true⟩]⟩],
        [⟨0, []⟩, ⟨0, [⟨"b", true⟩]⟩]⟩).2 = true :=
  reduce_loop_terminates [⟨0, []⟩, ⟨0, [⟨"b", true⟩]⟩] (by decide)

/-- C8: a property read whose source root identifier is in the
known-immutable set is always admitted to the block's fact set, for any
instruction id, mutable range and owning scope. -/
theorem push_known_immutable_override (node : NodeE) (instrId : Nat)
    (knownImmutableIdentifiers : List Nat) (result : List Dep)
    (h : node.rootIdentifier.id ∈ knownImmutableIdentifiers) :
    node.dep ∈ pushPropertyLoadNode node instrId knownImmutableIdentifiers
      result := by
  have hc : decide (node.rootIdentifier.id ∈ knownImmutableIdentifiers) =
      true := by simp [h]
  simp only [pushPropertyLoadNode, hc, Bool.or_true, if_true]
  exact mem_sadd.2 (Or.inr rfl)

/-- Witness for C8: identifier 1 has a mutable range of ten instructions and
an owning scope whose range contains the current instruction 5, yet the
node is admitted because 1 is known-immutable. -/
theorem push_known_immutable_override_witness :
    (⟨1, [⟨"x", false⟩]⟩ : Dep) ∈ pushPropertyLoadNode
      ⟨⟨1, [⟨"x", false⟩]⟩, ⟨1, none, ⟨0, 10⟩, some ⟨5, ⟨0, 10⟩⟩⟩⟩ 5 [1] [] :=
  push_known_immutable_override
    ⟨⟨1, [⟨"x", false⟩]⟩, ⟨1, none, ⟨0, 10⟩, some ⟨5, ⟨0, 10⟩⟩⟩⟩ 5 [1] []
    (by decide)

/-- C9: the pass is deterministic — the embedding is a pure function of the
function IR, alias map and optional-chain map, mirroring the source's
exclusive use of insertion-ordered maps and sets and fixed sweep orders, so
two runs on the same inputs return identical tables. -/
theorem collect_hoistable_deterministic :
    ∀ (fn : HIRFunction)
      (temporaries optionals : List (Nat × ReactiveScopeDependency)),
      collectHoistablePropertyLoads fn temporaries optionals =
        collectHoistablePropertyLoads fn temporaries optionals :=
  fun _ _ _ => rfl

/-- C10: a property read whose source root identifier has no owning scope,
or whose mutable range spans at most one instruction, is always admitted to
the block's fact set, for any instruction id and any known-immutable set. -/
theorem push_settled_root_always_added (node : NodeE) (instrId : Nat)
    (knownImmutableIdentifiers : List Nat) (result : List Dep)
    (h : node.rootIdentifier.scope = none ∨
      node.rootIdentifier.mutableRange.stop ≤
        node.rootIdentifier.mutableRange.start + 1) :
    node.dep ∈ pushPropertyLoadNode node instrId knownImmutableIdentifiers
      result := by
  have hm : (decide (node.rootIdentifier.mutableRange.stop >
      node.rootIdentifier.mutableRange.start + 1) &&
    (match node.rootIdentifier.scope with
     | some s => inRange instrId s.range
     | none => false)) = false := by
    rcases h with hs | hr
    · rw [hs]
      simp
    · have hd : decide (node.rootIdentifier.mutableRange.stop >
          node.rootIdentifier.mutableRange.start + 1) = false := by
        simp only [decide_eq_false_iff_not]
        omega
      rw [hd]
      simp
  simp only [pushPropertyLoadNode, hm, Bool.not_false, Bool.true_or, if_true]
  exact mem_sadd.2 (Or.inr rfl)

/-- Witness for C10: a root identifier with no owning scope is admitted with
an empty known-immutable set. -/
theorem push_settled_root_always_added_witness :
    (⟨2, []⟩ : Dep) ∈ pushPropertyLoadNode
      ⟨⟨2, []⟩, ⟨2, none, ⟨0, 10⟩, none⟩⟩ 5 [] [] :=
  push_settled_root_always_added ⟨⟨2, []⟩, ⟨2, none, ⟨0, 10⟩, none⟩⟩ 5 [] []
    (Or.inl rfl)

end CollectHoistable
